import Mathlib

/-!
# macdylibbundler: dependency resolution and bundling

A shallow embedding of `src/Dependency.cpp` and `src/DylibBundler.cpp`.

* C++ strings are `String`, vectors are `List`, `std::set` is a duplicate-free
  `List`, `std::map<std::string, ...>` is a function from the key.
* The process-wide globals (`deps`, `deps_per_file`, `deps_collected`,
  `frameworks`, `rpaths` and the mutable part of `Settings`) are gathered
  in `State` and passed explicitly.
* Functions of `Utils.cpp` / `Settings.cpp`, which are outside the translated
  sources, and the operating system (`realpath`, the file system, the
  operator) are fields of `Env`; the general theorems hold for all of them, and
  `Example.mkEnv` builds concrete ones over a small file system.
* Rewriting actions (`changeInstallName`, `systemp`) and copies are recorded
  in a trace of `Action`s.
-/

namespace DylibBundler

/-! # Definitions -/

/-! ## Settings -/

/-- Modelled from the spec: the mutable part of `Settings` (Settings.cpp is not
among the sources): the ordered search-path list, the flag recording that a
dependency needed the learned search path, the per-binary reference roots
(a binary has an entry once a root was recorded for it) and the designated
binaries. -/
structure Settings where
  searchPaths : List String
  missingPrefixes : Bool
  rpaths_per_file : String → Option (List String)
  filesToFix : List String

/-- Insertion into a `std::set` kept as a duplicate-free list. -/
def setInsert (s : String) (xs : List String) : List String :=
  if s ∈ xs then xs else xs ++ [s]

namespace Settings

/-- The call `Settings::addSearchPath(path)`. -/
def addSearchPath (s : Settings) (path : String) : Settings :=
  { s with searchPaths := s.searchPaths ++ [path] }

/-- The call `Settings::missingPrefixes(true)`. -/
def setMissingPrefixes (s : Settings) : Settings :=
  { s with missingPrefixes := true }

/-- The call `Settings::fileHasRpath(file)`. -/
def fileHasRpath (s : Settings) (file : String) : Bool :=
  (s.rpaths_per_file file).isSome

/-- The call `Settings::getRpathsForFile(file)`. -/
def getRpathsForFile (s : Settings) (file : String) : List String :=
  (s.rpaths_per_file file).getD []

/-- The call `Settings::addRpathForFile(file, rpath)`. -/
def addRpathForFile (s : Settings) (file rpath : String) : Settings :=
  let roots := setInsert rpath (s.getRpathsForFile file)
  { s with rpaths_per_file := Function.update s.rpaths_per_file file (some roots) }

end Settings

/-- The collaborators of the resolver: helpers of `Utils.cpp`, the read-only
classification policy and fixed paths of `Settings`, the file system and the
operator. -/
structure Env where
  rtrim : String → String
  isRpath : String → Bool
  /-- Two-argument overload, reading the current settings. -/
  searchFilenameInRpaths : Settings → String → String → String
  /-- One-argument overload. -/
  searchFilenameInRpaths1 : Settings → String → String
  realpath : String → Option String
  filePrefix : String → String
  stripPrefix : String → String
  getFrameworkRoot : String → String
  getFrameworkPath : String → String
  fileExists : String → Bool
  /-- The directories `initSearchPaths()` appends to the search-path list. -/
  initSearchPaths : List String
  /-- The directory the operator names for a missing file; it may consult the
  settings. -/
  getUserInputDirForFile : Settings → String → String → String
  isPrefixBundled : String → Bool
  isPrefixIgnored : String → Bool
  insideLibPath : String
  destFolder : String
  bundleLibs : Bool
  /-- The lines `parseLoadCommands(file, cmd, value, lines)` appends. -/
  parseLoadCommands : String → String → String → List String
  /-- Exit status of a shell command. -/
  systemp : String → Int

/-! ## Dependency -/

/-- The class `Dependency` (its private members). -/
structure Dependency where
  is_framework : Bool
  filename : String
  prefix_ : String
  symlinks : List String
  new_name : String
deriving DecidableEq, Repr

namespace Dependency

/-- Header accessor `getOriginalFileName`. -/
def getOriginalFileName (d : Dependency) : String := d.filename

/-- Header accessor `getPrefix`. -/
def getPrefix (d : Dependency) : String := d.prefix_

/-- Header accessor `isFramework`. -/
def isFramework (d : Dependency) : Bool := d.is_framework

/-- Modelled from the spec: the header accessor `getOriginalPath` (Dependency.h is
not among the sources) returns the canonical location, which the data model
splits into directory prefix and file name. -/
def getOriginalPath (d : Dependency) : String := d.prefix_ ++ d.filename

/-- `Dependency::getInstallPath`. -/
def getInstallPath (env : Env) (d : Dependency) : String := env.destFolder ++ d.new_name

/-- `Dependency::getInnerPath`. -/
def getInnerPath (env : Env) (d : Dependency) : String := env.insideLibPath ++ d.new_name

/-- `Dependency::addSymlink`. -/
def addSymlink (d : Dependency) (s : String) : Dependency :=
  if s ∈ d.symlinks then d else { d with symlinks := d.symlinks ++ [s] }

/-- `Dependency::mergeIfSameAs`: the receiver is `d`, the argument `dep2` is
passed by reference and returned updated. -/
def mergeIfSameAs (d dep2 : Dependency) : Bool × Dependency :=
  if dep2.getOriginalFileName = d.filename then
    (true, d.symlinks.foldl addSymlink dep2)
  else
    (false, dep2)

/-- The test `original_file.find(".framework") != std::string::npos`. -/
def containsFramework (original_file : String) : Bool :=
  decide (".framework".data <:+: original_file.data)

/-- The test `!prefix.empty() && prefix[prefix.size()-1] != '/'`. -/
def needsSlash (p : String) : Bool :=
  decide (p ≠ "") && decide (p.data.getLast? ≠ some '/')

/-- First step of the constructor: the value of `original_file` for the trimmed
`path`. -/
def resolveOriginal (env : Env) (s : Settings) (path dependent_file : String) : String :=
  if env.isRpath path then env.searchFilenameInRpaths s path dependent_file
  else match env.realpath path with
    | some r => r
    | none => path

/-- The prefix of `original_file` with the slash the constructor appends when it
is missing. -/
def slashedPrefix (env : Env) (original_file : String) : String :=
  if needsSlash (env.filePrefix original_file) then env.filePrefix original_file ++ "/"
  else env.filePrefix original_file

/-- The prefix after the framework test of the constructor: that of the framework
root for a framework, the slashed prefix otherwise. -/
def locatedPrefix (env : Env) (original_file : String) : String :=
  if containsFramework original_file then env.filePrefix (env.getFrameworkRoot original_file)
  else slashedPrefix env original_file

/-- The file name after the framework test of the constructor:
`framework_name + "/" + framework_path` for a framework, the leaf otherwise. -/
def locatedName (env : Env) (original_file : String) : String :=
  if containsFramework original_file then
    env.stripPrefix (env.getFrameworkRoot original_file) ++ "/" ++
      env.getFrameworkPath original_file
  else env.stripPrefix original_file

/-- The constructor `Dependency::Dependency(path, dependent_file)`; it reads and
updates the settings (search paths, missing-prefix flag). -/
def new (env : Env) (s : Settings) (path0 dependent_file : String) : Dependency × Settings :=
  let path := env.rtrim path0
  let original_file := resolveOriginal env s path dependent_file
  let d0 : Dependency :=
    { is_framework := false, filename := "", prefix_ := "", symlinks := [], new_name := "" }
  let d1 := if original_file ≠ path then d0.addSymlink path else d0
  let filename := env.stripPrefix original_file
  let p1 := slashedPrefix env original_file
  if !env.isPrefixBundled p1 then
    ({ d1 with filename := filename, prefix_ := p1 }, s)
  else
    let fw := containsFramework original_file
    let p2 := locatedPrefix env original_file
    let filename2 := locatedName env original_file
    let r : String × Settings :=
      if p2 = "" ∨ env.fileExists (p2 ++ filename2) = false then
        let search_paths := s.searchPaths
        let s1 := if search_paths = [] then
            { s with searchPaths := s.searchPaths ++ env.initSearchPaths } else s
        match search_paths.find? (fun sp => env.fileExists (sp ++ filename2)) with
        | some sp => (sp, s1.setMissingPrefixes)
        | none => (p2, s1)
      else (p2, s)
    let p3 := r.1
    let s2 := r.2
    let s3 :=
      if env.isPrefixIgnored p3 = false ∧ (p3 = "" ∨ env.fileExists (p3 ++ filename2) = false) then
        (s2.setMissingPrefixes).addSearchPath
          (env.getUserInputDirForFile s2 filename2 dependent_file)
      else s2
    ({ d1 with is_framework := fw, filename := filename2, prefix_ := p3, new_name := filename2 }, s3)

end Dependency

/-! ## Actions -/

/-- What the bundler asks of the file system and the linkage rewriter. -/
inductive Action where
  | createDestDir
  | copyToAppBundle (d : Dependency)
  | changeInstallName (file old new : String)
  | systemp (command : String)
deriving DecidableEq, Repr

/-- `Dependency::fixDependentFiles`: the `changeInstallName` calls, in order. -/
def Dependency.fixDependentFiles (env : Env) (missingPrefixes : Bool) (d : Dependency)
    (file : String) : List Action :=
  [Action.changeInstallName file d.getOriginalPath (d.getInnerPath env)] ++
  d.symlinks.map (fun symlink => Action.changeInstallName file symlink (d.getInnerPath env)) ++
  (if missingPrefixes then
    [Action.changeInstallName file d.filename (d.getInnerPath env)] ++
    d.symlinks.map (fun symlink => Action.changeInstallName file symlink (d.getInnerPath env))
  else [])

/-! ## The resolver's state -/

/-- The globals of `DylibBundler.cpp` together with the settings. -/
structure State where
  deps : List Dependency
  deps_per_file : String → List Dependency
  deps_collected : List String
  frameworks : List String
  rpaths : List String
  settings : Settings

/-- The state at program start, for given command-line settings. -/
def State.init (s : Settings) : State :=
  { deps := [], deps_per_file := fun _ => [], deps_collected := [], frameworks := [],
    rpaths := [], settings := s }

/-- One of the two merge loops of `addDependency`: merge `dependency` into every
element, and report whether one of them was the same. -/
def mergeInto (dependency : Dependency) : List Dependency → Bool × List Dependency
  | [] => (false, [])
  | dep :: rest =>
    let r := dependency.mergeIfSameAs dep
    let rs := mergeInto dependency rest
    (r.1 || rs.1, r.2 :: rs.2)

/-- The body of `addDependency` after the construction of `dependency`. -/
def addDependencyWith (env : Env) (st : State) (dependency : Dependency)
    (dependent_file : String) : State :=
  let m1 := mergeInto dependency st.deps
  let in_deps := m1.1
  let m2 := mergeInto dependency (st.deps_per_file dependent_file)
  let in_deps_per_file := m2.1
  let st1 : State :=
    { st with deps := m1.2,
              deps_per_file := Function.update st.deps_per_file dependent_file m2.2 }
  if !env.isPrefixBundled dependency.getPrefix then st1
  else
    let st2 : State :=
      if !in_deps && dependency.isFramework then
        { st1 with frameworks := setInsert dependency.getOriginalPath st1.frameworks }
      else st1
    let st3 : State :=
      if !in_deps then { st2 with deps := st2.deps ++ [dependency] } else st2
    let pushed := st3.deps_per_file dependent_file ++ [dependency]
    if !in_deps_per_file then
      { st3 with deps_per_file := Function.update st3.deps_per_file dependent_file pushed }
    else st3

/-- `addDependency(path, dependent_file)`. -/
def addDependency (env : Env) (st : State) (path dependent_file : String) : State :=
  let c := Dependency.new env st.settings path dependent_file
  addDependencyWith env { st with settings := c.2 } c.1 dependent_file

/-- `collectDependencies(dependent_file, lines)`. -/
def collectDependencies (env : Env) (dependent_file : String) (lines : List String) :
    List String :=
  lines ++ env.parseLoadCommands dependent_file "LC_LOAD_DYLIB" "name"

/-- The two-argument `collectDependenciesForFile(file, lines)`. -/
def collectDependenciesForFileLines (env : Env) (st : State) (file : String)
    (lines : List String) : List String :=
  if file ∉ st.deps_collected then collectDependencies env file lines else lines

/-- `collectRpaths(filename)`. -/
def collectRpaths (env : Env) (st : State) (filename : String) : State :=
  (env.parseLoadCommands filename "LC_RPATH" "path").foldl
    (fun st line =>
      { st with rpaths := setInsert line st.rpaths,
                settings := st.settings.addRpathForFile filename line })
    st

/-- `collectRpathsForFilename(filename)`. -/
def collectRpathsForFilename (env : Env) (st : State) (filename : String) : State :=
  if !st.settings.fileHasRpath filename then collectRpaths env st filename else st

/-- Body of the loop over `lines` in the one-argument `collectDependenciesForFile`. -/
def collectLine (env : Env) (dependent_file : String) (st : State) (line : String) : State :=
  if !env.isPrefixBundled line then st
  else
    let st1 := if env.isRpath line then collectRpathsForFilename env st dependent_file else st
    addDependency env st1 line dependent_file

/-- The one-argument `collectDependenciesForFile(dependent_file)`. -/
def collectDependenciesForFile (env : Env) (st : State) (dependent_file : String) : State :=
  let lines := collectDependenciesForFileLines env st dependent_file []
  let st1 := collectRpathsForFilename env st dependent_file
  let st2 := lines.foldl (collectLine env dependent_file) st1
  { st2 with deps_collected := setInsert dependent_file st2.deps_collected }

/-- Body of the loop over `lines` in `collectSubDependencies`. -/
def subLine (env : Env) (original_path : String) (st : State) (line : String) : State :=
  if !env.isPrefixBundled line then st
  else
    let st1 :=
      if env.isRpath line then
        collectRpathsForFilename env st (env.searchFilenameInRpaths1 st.settings line)
      else st
    addDependency env st1 line original_path

/-- The value of `original_path` in the loop of `collectSubDependencies`, for the
dependency `d`. -/
def scanPath (env : Env) (st : State) (d : Dependency) : String :=
  if env.isRpath d.getOriginalPath then env.searchFilenameInRpaths1 st.settings d.getOriginalPath
  else d.getOriginalPath

/-- Body of the loop `for (n = 0; n < deps_size; ++n)` in `collectSubDependencies`. -/
def subStep (env : Env) (st : State) (n : Nat) : State :=
  match st.deps.get? n with
  | none => st
  | some d =>
    let original_path := scanPath env st d
    let lines := collectDependenciesForFileLines env st original_path []
    let st1 := collectRpathsForFilename env st original_path
    lines.foldl (subLine env original_path) st1

/-- One pass of the `while (true)` loop of `collectSubDependencies`, up to its
exit test. -/
def subPass (env : Env) (st : State) : State :=
  (List.range st.deps.length).foldl (subStep env) st

/-- The `while (true)` loop of `collectSubDependencies`, at most `fuel` passes;
`none` when the loop has not left by then. The call of `bundleQtPlugins`
after the loop is the plugin extension, which is left out (bundling of
frameworks disabled). -/
def collectSubDependencies (env : Env) : Nat → State → Option State
  | 0, _ => none
  | fuel + 1, st =>
    let st1 := subPass env st
    if st1.deps.length = st.deps.length then some st1
    else collectSubDependencies env fuel st1

/-- The seed phase: `collectDependenciesForFile` on each root in turn. -/
def seed (env : Env) (st : State) (roots : List String) : State :=
  roots.foldl (collectDependenciesForFile env) st

/-! ## Bundling -/

/-- How a step ends: the run goes on, or the process left with `exit(code)`. -/
inductive Outcome where
  | continue
  | exit (code : Nat)
deriving DecidableEq, Repr

/-- `changeLibPathsOnFile(file_to_fix)`: the new state and the rewrites issued. -/
def changeLibPathsOnFile (env : Env) (st : State) (file_to_fix : String) :
    State × List Action :=
  let st1 :=
    if file_to_fix ∉ st.deps_collected then collectDependenciesForFile env st file_to_fix
    else st
  (st1, (st1.deps_per_file file_to_fix).flatMap
    (fun d => d.fixDependentFiles env st1.settings.missingPrefixes file_to_fix))

/-- The command `fixRpathsOnFile` builds for one reference root. -/
def rpathCommand (env : Env) (rpath_to_fix file_to_fix : String) : String :=
  "install_name_tool -rpath " ++ (rpath_to_fix ++ " " ++ env.insideLibPath ++ " " ++ file_to_fix)

/-- The loop of `fixRpathsOnFile` over the reference roots. -/
def fixRpathsLoop (env : Env) (file_to_fix : String) : List String → List Action × Outcome
  | [] => ([], Outcome.continue)
  | rpath_to_fix :: rest =>
    let command := rpathCommand env rpath_to_fix file_to_fix
    if env.systemp command ≠ 0 then ([Action.systemp command], Outcome.exit 1)
    else
      let r := fixRpathsLoop env file_to_fix rest
      (Action.systemp command :: r.1, r.2)

/-- The set `rpaths_to_fix` of `fixRpathsOnFile`. -/
def rpathsToFix (s : Settings) (original_file : String) : List String :=
  if s.fileHasRpath original_file then s.getRpathsForFile original_file else []

/-- `fixRpathsOnFile(original_file, file_to_fix)`. -/
def fixRpathsOnFile (env : Env) (s : Settings) (original_file file_to_fix : String) :
    List Action × Outcome :=
  fixRpathsLoop env file_to_fix (rpathsToFix s original_file)

/-- The loop `for (const auto& dep : deps)` of `bundleDependencies`, run over the
live vector `deps`: `i` is the position of the iterator, `k` the number of
elements left before the end iterator taken when the loop began, and `dep` is
the element at `i` of the current `deps`, read again after
`changeLibPathsOnFile` (which may merge aliases into it). When the body has
appended to `deps`, the iterators of the range-for are invalidated and the
behaviour of the program is undefined from there: the loop stops with `none`. -/
def bundleLibsLoop (env : Env) : Nat → State → Nat → State × List Action × Option Outcome
  | 0, st, _ => (st, [], some Outcome.continue)
  | k + 1, st, i =>
    match st.deps.get? i with
    | none => (st, [], none)
    | some dep =>
      let c := changeLibPathsOnFile env st (dep.getInstallPath env)
      if c.1.deps.length ≠ st.deps.length then
        (c.1, Action.copyToAppBundle dep :: c.2, none)
      else
        let dep1 := (c.1.deps.get? i).getD dep
        let f := fixRpathsOnFile env c.1.settings dep1.getOriginalPath (dep1.getInstallPath env)
        let here := Action.copyToAppBundle dep :: (c.2 ++ f.1)
        match f.2 with
        | Outcome.exit code => (c.1, here, some (Outcome.exit code))
        | Outcome.continue =>
          let r := bundleLibsLoop env k c.1 (i + 1)
          (r.1, here ++ r.2.1, r.2.2)

/-- The loop `for (const auto& file : files)` of `bundleDependencies`. -/
def fixFilesLoop (env : Env) : State → List String → State × List Action × Outcome
  | st, [] => (st, [], Outcome.continue)
  | st, file :: rest =>
    let c := changeLibPathsOnFile env st file
    let f := fixRpathsOnFile env c.1.settings file file
    match f.2 with
    | Outcome.exit code => (c.1, c.2 ++ f.1, Outcome.exit code)
    | Outcome.continue =>
      let r := fixFilesLoop env c.1 rest
      (r.1, (c.2 ++ f.1) ++ r.2.1, r.2.2)

/-- `bundleDependencies()`: the final state, the trace of actions and how the run
ended (`none`: the loop over `deps` was invalidated, see `bundleLibsLoop`). The
designated binaries are a copy of `Settings::filesToFix()` taken after the
loop over `deps`. -/
def bundleDependencies (env : Env) (st : State) : State × List Action × Option Outcome :=
  let r1 : State × List Action × Option Outcome :=
    if env.bundleLibs then
      let r := bundleLibsLoop env st.deps.length st 0
      (r.1, Action.createDestDir :: r.2.1, r.2.2)
    else (st, [], some Outcome.continue)
  match r1.2.2 with
  | none => (r1.1, r1.2.1, none)
  | some (Outcome.exit code) => (r1.1, r1.2.1, some (Outcome.exit code))
  | some Outcome.continue =>
    let files := r1.1.settings.filesToFix
    let r2 := fixFilesLoop env r1.1 files
    (r2.1, r1.2.1 ++ r2.2.1, some r2.2.2)

/-! ## The rewriter on a list of references -/

/-- Modelled from the spec: `changeInstallName` (Utils.cpp is not among the sources)
is the rewriter's `replace_reference(file, old, new)`; on one reference of the
binary `file` it turns `old` into `new` and leaves any other string alone. -/
def applyOne (file : String) (r : String) : Action → String
  | Action.changeInstallName f old new => if f = file ∧ r = old then new else r
  | _ => r

/-- Modelled from the spec: the references of the binary `file`, a list of strings,
after the actions of a trace. -/
def applyActions (file : String) (refs : List String) (acts : List Action) : List String :=
  acts.foldl (fun rs a => rs.map (fun r => applyOne file r a)) refs

/-- The references of `f` after `collectDependenciesForFile(f)` and
`changeLibPathsOnFile(f)`. -/
def rewrittenRefs (env : Env) (st : State) (f : String) : List String :=
  applyActions f (env.parseLoadCommands f "LC_LOAD_DYLIB" "name")
    (changeLibPathsOnFile env (collectDependenciesForFile env st f) f).2

/-! ## The working set has no duplicate file name -/

/-- The part of a `Dependency` that merging never touches. -/
def Dependency.core (d : Dependency) : Bool × String × String × String :=
  (d.is_framework, d.filename, d.prefix_, d.new_name)

/-- No two entries of the flat collection, and no two entries of one per-binary
list, have the same file name. -/
def NoDupNames (st : State) : Prop :=
  (st.deps.map Dependency.filename).Nodup ∧
  ∀ b, ((st.deps_per_file b).map Dependency.filename).Nodup

/-! ## Termination of the expansion loop -/

/-- The flat collection has no duplicate file name and every file name in it is
one of `names`. -/
def NamesWithin (names : Finset String) (st : State) : Prop :=
  (st.deps.map Dependency.filename).Nodup ∧ ∀ x ∈ st.deps.map Dependency.filename, x ∈ names

namespace Example

/-! ## A concrete environment

A small file system used to run the definitions: `files` are the regular files,
`links` the symbolic links with their targets, `loads` the `LC_LOAD_DYLIB`
entries of each binary. Paths are split at the last slash; `/usr/lib/`,
`/System/Library/` and `@executable_path` are not bundled. -/

/-- Directory part of a path, up to and including the last slash. -/
def dirOf : List Char → List Char
  | [] => []
  | c :: cs => if '/' ∈ cs then c :: dirOf cs else if c = '/' then [c] else []

/-- Leaf part of a path, after the last slash. -/
def leafOf : List Char → List Char
  | [] => []
  | c :: cs => if '/' ∈ cs then leafOf cs else if c = '/' then cs else c :: cs

/-- Whether `needle` occurs in `s`. -/
def occursIn (needle s : String) : Bool := decide (needle.data <:+: s.data)

/-- Whether `s` starts with `p`. -/
def startsWith (p s : String) : Bool := decide (p.data <+: s.data)

/-- The classification policy: system locations and `@executable_path` are left
alone. -/
def bundled (p : String) : Bool :=
  !(occursIn "@executable_path" p) && !(startsWith "/usr/lib/" p) &&
    !(startsWith "/System/Library/" p)

/-- The environment over a given file system and load-command table. -/
def mkEnv (files : List String) (links : List (String × String))
    (loads : List (String × List String)) : Env :=
  { rtrim := fun s => String.mk (s.data.reverse.dropWhile Char.isWhitespace).reverse
    isRpath := fun s => occursIn "@rpath" s || occursIn "@loader_path" s
    searchFilenameInRpaths := fun _ p _ => p
    searchFilenameInRpaths1 := fun _ p => p
    realpath := fun p =>
      match links.lookup p with
      | some t => some t
      | none => if p ∈ files then some p else none
    filePrefix := fun s => String.mk (dirOf s.data)
    stripPrefix := fun s => String.mk (leafOf s.data)
    getFrameworkRoot := fun s => s
    getFrameworkPath := fun _ => ""
    fileExists := fun p => decide (p ∈ files) || (links.lookup p).isSome
    initSearchPaths := []
    getUserInputDirForFile := fun _ _ _ => "/nowhere/"
    isPrefixBundled := bundled
    isPrefixIgnored := fun _ => false
    insideLibPath := "@executable_path/../libs/"
    destFolder := "./libs/"
    bundleLibs := true
    parseLoadCommands := fun file cmd _ =>
      if cmd = "LC_LOAD_DYLIB" then (loads.lookup file).getD [] else []
    systemp := fun _ => 0 }

/-- Settings of a run with the given designated binaries. -/
def settings (filesToFix : List String) : Settings :=
  { searchPaths := [], missingPrefixes := false, rpaths_per_file := fun _ => none,
    filesToFix := filesToFix }

/-- A chain: the application loads `libA`, which loads `libB`; the copy of `libA`
in the destination folder has the load commands of `libA`. -/
def chainEnv : Env :=
  mkEnv ["/app/main", "/opt/lib/libA.dylib", "/opt/lib/libB.dylib"] []
    [("/app/main", ["/opt/lib/libA.dylib"]),
     ("/opt/lib/libA.dylib", ["/opt/lib/libB.dylib"]),
     ("./libs/libA.dylib", ["/opt/lib/libB.dylib"])]

end Example

/-! ## Only bundled prefixes enter the working set -/

/-- A library and a symbolic link to it, referenced by two applications. -/
def Example.linkEnv : Env :=
  Example.mkEnv ["/app/b1", "/app/b2", "/usr/local/lib/libX.dylib"]
    [("/opt/lib/libX.dylib", "/usr/local/lib/libX.dylib")]
    [("/app/b1", ["/usr/local/lib/libX.dylib"]), ("/app/b2", ["/opt/lib/libX.dylib"])]

/-! ## Which references of a binary are rewritten -/

/-- Some Dependency of `deps_per_file[f]` lists `x` as alias. -/
def HasAlias (f x : String) (st : State) : Prop :=
  ∃ d ∈ st.deps_per_file f, x ∈ d.symlinks

/-- Two libraries with the same leaf name in different directories, both
referenced by the application. -/
def Example.twinEnv : Env :=
  Example.mkEnv ["/app/main", "/a/libX.dylib", "/b/libX.dylib"] []
    [("/app/main", ["/a/libX.dylib", "/b/libX.dylib"])]

/-- The application references `/old/libZ.dylib`, which is not there; the library
is found through the search path `/opt/lib/`. -/
def Example.searchEnv : Env :=
  Example.mkEnv ["/app/main", "/opt/lib/libZ.dylib"] [] [("/app/main", ["/old/libZ.dylib"])]

/-- Settings with the search path `/opt/lib/`. -/
def Example.searchSettings : Settings :=
  { searchPaths := ["/opt/lib/"], missingPrefixes := false, rpaths_per_file := fun _ => none,
    filesToFix := ["/app/main"] }

/-! ## The order of copies and rewrites in `bundleDependencies` -/

/-- The application loads `libA`; the copy of `libA` in the destination folder
lists a library `libC` that the resolver has not seen. -/
def Example.lateEnv : Env :=
  Example.mkEnv ["/app/main", "/opt/lib/libA.dylib", "/opt/lib/libC.dylib"] []
    [("/app/main", ["/opt/lib/libA.dylib"]), ("./libs/libA.dylib", ["/opt/lib/libC.dylib"])]

/-- The late example after the seed phase and a pass of the expansion loop. -/
def Example.lateResolved : State :=
  subPass Example.lateEnv
    (seed Example.lateEnv (State.init (Example.settings ["/app/main"])) ["/app/main"])

/-- The Dependency of `libA` in the chain example. -/
def Example.libA : Dependency :=
  { is_framework := false, filename := "libA.dylib", prefix_ := "/opt/lib/",
    symlinks := [], new_name := "libA.dylib" }

/-- The Dependency of `libB` in the chain example. -/
def Example.libB : Dependency :=
  { is_framework := false, filename := "libB.dylib", prefix_ := "/opt/lib/",
    symlinks := [], new_name := "libB.dylib" }

/-! ## The fixed point holds one Dependency per reachable file -/

/-- The Dependencies the bundled references of the binary `p` resolve to (under
the settings `s0`): the edges of the dependency graph out of `p`. -/
def children (env : Env) (s0 : Settings) (p : String) : List Dependency :=
  (((env.parseLoadCommands p "LC_LOAD_DYLIB" "name").filter env.isPrefixBundled).map
    (fun l => (Dependency.new env s0 l p).1)).filter (fun d => env.isPrefixBundled d.prefix_)

/-- The library files reachable from the roots. -/
inductive Reach (env : Env) (s0 : Settings) (roots : List String) : Dependency → Prop
  | root {r : String} {d : Dependency} :
      r ∈ roots → d ∈ children env s0 r → Reach env s0 roots d
  | step {d d' : Dependency} :
      Reach env s0 roots d → d' ∈ children env s0 d.getOriginalPath → Reach env s0 roots d'

/-- The resolution of a listed reference does not depend on the settings. -/
def StateIndependent (env : Env) : Prop :=
  ∀ (s s' : Settings) (l f : String), l ∈ env.parseLoadCommands f "LC_LOAD_DYLIB" "name" →
    (Dependency.new env s l f).1.core = (Dependency.new env s' l f).1.core

/-- Reachable files are not named by search-path-relative tokens. -/
def PlainPaths (env : Env) (s0 : Settings) (roots : List String) : Prop :=
  ∀ d, Reach env s0 roots d → env.isRpath d.getOriginalPath = false

/-- Among the reachable files, two have the same file name exactly when they are
the same file. -/
def DistinctNames (env : Env) (s0 : Settings) (roots : List String) : Prop :=
  ∀ d1 d2, Reach env s0 roots d1 → Reach env s0 roots d2 →
    (d1.filename = d2.filename ↔ d1.getOriginalPath = d2.getOriginalPath)

/-- The file names of the flat collection. -/
def State.names (st : State) : List String := st.deps.map Dependency.filename

/-- A file the resolver may scan: a root or a reachable library. -/
def Scannable (env : Env) (s0 : Settings) (roots : List String) (f : String) : Prop :=
  f ∈ roots ∨ ∃ d, Reach env s0 roots d ∧ d.getOriginalPath = f

/-- Every entry of the flat collection is a reachable library. -/
def Sound (env : Env) (s0 : Settings) (roots : List String) (st : State) : Prop :=
  ∀ d ∈ st.deps, ∃ d0, Reach env s0 roots d0 ∧ d.core = d0.core

/-- The libraries referenced by `p` are in the flat collection (by file name). -/
def Scanned (env : Env) (s0 : Settings) (st : State) (p : String) : Prop :=
  ∀ d0 ∈ children env s0 p, d0.filename ∈ st.names

/-- The invariant of the resolver. -/
def Inv (env : Env) (s0 : Settings) (roots : List String) (st : State) : Prop :=
  Sound env s0 roots st ∧ st.names.Nodup ∧ ∀ f ∈ st.deps_collected, Scanned env s0 st f

/-- The invariant after the seed phase: all roots have been collected. -/
def SeededInv (env : Env) (s0 : Settings) (roots : List String) (st : State) : Prop :=
  Inv env s0 roots st ∧ ∀ r ∈ roots, r ∈ st.deps_collected

/-- C4 as stated, for one reader and one list of roots: the resolver ends with as
many Dependencies as there are reachable library files. -/
def ExactlyReachable (env : Env) (s0 : Settings) (roots : List String) : Prop :=
  ∀ R : Finset String,
    (∀ q, q ∈ R ↔ ∃ d, Reach env s0 roots d ∧ d.getOriginalPath = q) →
    ∃ fuel st, collectSubDependencies env fuel (seed env (State.init s0) roots) = some st ∧
      st.deps.length = R.card

/-- The Dependency of `/a/libX.dylib` in the twin example. -/
def Example.twinA : Dependency :=
  { is_framework := false, filename := "libX.dylib", prefix_ := "/a/",
    symlinks := [], new_name := "libX.dylib" }

/-- The Dependency of `/b/libX.dylib` in the twin example. -/
def Example.twinB : Dependency :=
  { is_framework := false, filename := "libX.dylib", prefix_ := "/b/",
    symlinks := [], new_name := "libX.dylib" }

/-! # Theorems -/

/-! ## Merging -/

theorem addSymlink_symlinks (o : Dependency) (s : String) :
    (o.addSymlink s).symlinks = if s ∈ o.symlinks then o.symlinks else o.symlinks ++ [s] := by
  unfold Dependency.addSymlink
  split <;> rfl

theorem addSymlink_fields (o : Dependency) (s : String) :
    (o.addSymlink s).filename = o.filename ∧ (o.addSymlink s).prefix_ = o.prefix_ ∧
    (o.addSymlink s).new_name = o.new_name ∧ (o.addSymlink s).is_framework = o.is_framework := by
  unfold Dependency.addSymlink
  split <;> simp

theorem foldl_addSymlink_fields (xs : List String) (o : Dependency) :
    (xs.foldl Dependency.addSymlink o).filename = o.filename ∧
    (xs.foldl Dependency.addSymlink o).prefix_ = o.prefix_ ∧
    (xs.foldl Dependency.addSymlink o).new_name = o.new_name ∧
    (xs.foldl Dependency.addSymlink o).is_framework = o.is_framework := by
  induction xs generalizing o with
  | nil => simp
  | cons x xs ih =>
    obtain ⟨h1, h2, h3, h4⟩ := addSymlink_fields o x
    obtain ⟨i1, i2, i3, i4⟩ := ih (o.addSymlink x)
    simp only [List.foldl_cons]
    exact ⟨i1.trans h1, i2.trans h2, i3.trans h3, i4.trans h4⟩

theorem mem_foldl_addSymlink (xs : List String) (o : Dependency) (s : String) :
    s ∈ (xs.foldl Dependency.addSymlink o).symlinks ↔ s ∈ o.symlinks ∨ s ∈ xs := by
  induction xs generalizing o with
  | nil => simp
  | cons x xs ih =>
    simp only [List.foldl_cons, ih, addSymlink_symlinks, List.mem_cons]
    by_cases hx : x ∈ o.symlinks
    · simp only [hx, if_true]
      constructor
      · rintro (h | h)
        · exact Or.inl h
        · exact Or.inr (Or.inr h)
      · rintro (h | h | h)
        · exact Or.inl h
        · exact Or.inl (h ▸ hx)
        · exact Or.inr h
    · simp only [hx, if_false, List.mem_append, List.mem_singleton]
      tauto

theorem prefix_foldl_addSymlink (xs : List String) (o : Dependency) :
    o.symlinks <+: (xs.foldl Dependency.addSymlink o).symlinks := by
  induction xs generalizing o with
  | nil => exact List.prefix_refl _
  | cons x xs ih =>
    simp only [List.foldl_cons]
    refine List.IsPrefix.trans ?_ (ih (o.addSymlink x))
    rw [addSymlink_symlinks]
    split
    · exact List.prefix_refl _
    · exact List.prefix_append _ _

theorem count_foldl_addSymlink (xs : List String) (o : Dependency) (s : String) :
    (xs.foldl Dependency.addSymlink o).symlinks.count s =
      if s ∈ o.symlinks then o.symlinks.count s else if s ∈ xs then 1 else 0 := by
  induction xs generalizing o with
  | nil =>
    by_cases h : s ∈ o.symlinks
    · simp [h]
    · simp [h, List.count_eq_zero_of_not_mem h]
  | cons x xs ih =>
    simp only [List.foldl_cons, ih, addSymlink_symlinks, List.mem_cons]
    by_cases hx : x ∈ o.symlinks
    · simp only [hx, if_true]
      by_cases hs : s ∈ o.symlinks
      · simp [hs]
      · have hsx : s ≠ x := fun e => hs (e ▸ hx)
        simp [hs, hsx]
    · simp only [hx, if_false, List.mem_append, List.mem_singleton, List.count_append]
      by_cases hs : s ∈ o.symlinks
      · have hsx : s ≠ x := fun e => hx (e ▸ hs)
        have hxs : ¬ (x = s) := fun e => hsx e.symm
        simp [hs, hsx, List.count_cons, hxs]
      · by_cases hsx : s = x
        · subst hsx
          simp [hs, List.count_eq_zero_of_not_mem hs]
        · have hxs : ¬ (x = s) := fun e => hsx e.symm
          simp [hs, hsx, hxs, List.count_eq_zero_of_not_mem hs, List.count_cons]

/-- C1. `mergeIfSameAs`: when the file names are equal the call returns true and
the argument's alias list afterwards is its old list (kept as a prefix,
multiplicities unchanged) followed by the receiver's aliases it did not have,
each exactly once, so it holds exactly the aliases of either; its other fields
are as before. When the file names differ the call returns false and the
argument is returned as it was. The receiver is only read. -/
theorem mergeIfSameAs_spec (d other : Dependency) :
    (d.filename = other.filename →
      (d.mergeIfSameAs other).1 = true ∧
      (∀ s, s ∈ (d.mergeIfSameAs other).2.symlinks ↔ s ∈ other.symlinks ∨ s ∈ d.symlinks) ∧
      (∀ s, (d.mergeIfSameAs other).2.symlinks.count s =
        if s ∈ other.symlinks then other.symlinks.count s
        else if s ∈ d.symlinks then 1 else 0) ∧
      other.symlinks <+: (d.mergeIfSameAs other).2.symlinks ∧
      (d.mergeIfSameAs other).2.filename = other.filename ∧
      (d.mergeIfSameAs other).2.prefix_ = other.prefix_ ∧
      (d.mergeIfSameAs other).2.new_name = other.new_name ∧
      (d.mergeIfSameAs other).2.is_framework = other.is_framework) ∧
    (d.filename ≠ other.filename → d.mergeIfSameAs other = (false, other)) := by
  constructor
  · intro h
    have hm : d.mergeIfSameAs other = (true, d.symlinks.foldl Dependency.addSymlink other) := by
      simp [Dependency.mergeIfSameAs, Dependency.getOriginalFileName, h]
    rw [hm]
    exact ⟨rfl, mem_foldl_addSymlink _ _, count_foldl_addSymlink _ _,
      prefix_foldl_addSymlink _ _, foldl_addSymlink_fields _ _⟩
  · intro h
    have h2 : ¬ (other.filename = d.filename) := fun e => h e.symm
    simp [Dependency.mergeIfSameAs, Dependency.getOriginalFileName, h2]

/-! ## The working set has no duplicate file name -/

theorem mergeIfSameAs_core (d o : Dependency) : (d.mergeIfSameAs o).2.core = o.core := by
  unfold Dependency.mergeIfSameAs
  split
  · obtain ⟨h1, h2, h3, h4⟩ := foldl_addSymlink_fields d.symlinks o
    simp [Dependency.core, h1, h2, h3, h4]
  · rfl

theorem mergeIfSameAs_fst (d o : Dependency) :
    (d.mergeIfSameAs o).1 = decide (o.filename = d.filename) := by
  unfold Dependency.mergeIfSameAs Dependency.getOriginalFileName
  split <;> simp [*]

theorem mergeInto_core (d : Dependency) (xs : List Dependency) :
    (mergeInto d xs).2.map Dependency.core = xs.map Dependency.core := by
  induction xs with
  | nil => rfl
  | cons x xs ih => simp [mergeInto, ih, mergeIfSameAs_core]

theorem map_filename_of_core {xs ys : List Dependency}
    (h : xs.map Dependency.core = ys.map Dependency.core) :
    xs.map Dependency.filename = ys.map Dependency.filename := by
  have := congrArg (List.map (fun c : Bool × String × String × String => c.2.1)) h
  simpa [List.map_map, Function.comp_def, Dependency.core] using this

theorem mergeInto_filename (d : Dependency) (xs : List Dependency) :
    (mergeInto d xs).2.map Dependency.filename = xs.map Dependency.filename :=
  map_filename_of_core (mergeInto_core d xs)

theorem mergeInto_fst (d : Dependency) (xs : List Dependency) :
    (mergeInto d xs).1 = true ↔ d.filename ∈ xs.map Dependency.filename := by
  induction xs with
  | nil => simp [mergeInto]
  | cons x xs ih =>
    simp only [mergeInto, Bool.or_eq_true, ih, mergeIfSameAs_fst, decide_eq_true_eq,
      List.map_cons, List.mem_cons]
    constructor
    · rintro (h | h)
      · exact Or.inl h.symm
      · exact Or.inr h
    · rintro (h | h)
      · exact Or.inl h.symm
      · exact Or.inr h

/-- What `addDependency` does to the flat collection, up to aliases. -/
theorem addDependencyWith_deps_core (env : Env) (st : State) (d : Dependency) (f : String) :
    (addDependencyWith env st d f).deps.map Dependency.core =
      st.deps.map Dependency.core ++
        (if env.isPrefixBundled d.prefix_ = true ∧ d.filename ∉ st.deps.map Dependency.filename
          then [d.core] else []) := by
  have hc := mergeInto_core d st.deps
  have hf := mergeInto_fst d st.deps
  unfold addDependencyWith
  simp only [Dependency.getPrefix]
  by_cases hb : env.isPrefixBundled d.prefix_ = true
  · by_cases hin : (mergeInto d st.deps).1 = true
    · have hmem := hf.1 hin
      by_cases h2 : (mergeInto d (st.deps_per_file f)).1 = true <;>
        simp [hb, hin, h2, hmem, hc]
    · have hmem : d.filename ∉ st.deps.map Dependency.filename := fun h => hin (hf.2 h)
      by_cases h2 : (mergeInto d (st.deps_per_file f)).1 = true <;>
        by_cases h3 : d.isFramework = true <;>
        simp [hb, hin, h2, h3, hmem, hc]
  · simp [hb, hc]

/-- What `addDependency` does to the list of the dependent file, up to aliases. -/
theorem addDependencyWith_per_file_core (env : Env) (st : State) (d : Dependency) (f : String) :
    ((addDependencyWith env st d f).deps_per_file f).map Dependency.core =
      (st.deps_per_file f).map Dependency.core ++
        (if env.isPrefixBundled d.prefix_ = true ∧
            d.filename ∉ (st.deps_per_file f).map Dependency.filename
          then [d.core] else []) := by
  have hc := mergeInto_core d (st.deps_per_file f)
  have hf := mergeInto_fst d (st.deps_per_file f)
  unfold addDependencyWith
  simp only [Dependency.getPrefix]
  by_cases hb : env.isPrefixBundled d.prefix_ = true
  · by_cases h2 : (mergeInto d (st.deps_per_file f)).1 = true
    · have hmem := hf.1 h2
      by_cases hin : (mergeInto d st.deps).1 = true <;>
        by_cases h3 : d.isFramework = true <;>
        simp [hb, hin, h2, h3, hmem, hc]
    · have hmem : d.filename ∉ (st.deps_per_file f).map Dependency.filename :=
        fun h => h2 (hf.2 h)
      by_cases hin : (mergeInto d st.deps).1 = true <;>
        by_cases h3 : d.isFramework = true <;>
        simp [hb, hin, h2, h3, hmem, hc]
  · simp [hb, hc]

/-- The lists of the other files are left alone. -/
theorem addDependencyWith_per_file_other (env : Env) (st : State) (d : Dependency)
    (f g : String) (h : g ≠ f) :
    (addDependencyWith env st d f).deps_per_file g = st.deps_per_file g := by
  unfold addDependencyWith
  simp only [Dependency.getPrefix]
  by_cases hb : env.isPrefixBundled d.prefix_ = true <;>
    by_cases h2 : (mergeInto d (st.deps_per_file f)).1 = true <;>
    by_cases hin : (mergeInto d st.deps).1 = true <;>
    by_cases h3 : d.isFramework = true <;>
    simp [hb, hin, h2, h3, Function.update_noteq h]

theorem nodup_append_if {xs : List String} (h : xs.Nodup) (c : Prop) [Decidable c] (x : String)
    (hx : c → x ∉ xs) : (xs ++ if c then [x] else []).Nodup := by
  by_cases hc : c
  · simp only [hc, if_true]
    exact List.nodup_append.2 ⟨h, List.nodup_singleton x, by
      intro a ha hb
      rw [List.mem_singleton] at hb
      exact hx hc (hb ▸ ha)⟩
  · simpa [hc] using h

theorem addDependencyWith_deps_filename (env : Env) (st : State) (d : Dependency) (f : String) :
    (addDependencyWith env st d f).deps.map Dependency.filename =
      st.deps.map Dependency.filename ++
        (if env.isPrefixBundled d.prefix_ = true ∧ d.filename ∉ st.deps.map Dependency.filename
          then [d.filename] else []) := by
  have h := congrArg (List.map (fun c : Bool × String × String × String => c.2.1))
    (addDependencyWith_deps_core env st d f)
  rw [List.map_append, List.map_map, List.map_map] at h
  rw [show (fun c : Bool × String × String × String => c.2.1) ∘ Dependency.core =
    Dependency.filename from rfl] at h
  rw [h]
  split <;> rfl

theorem addDependencyWith_per_file_filename (env : Env) (st : State) (d : Dependency)
    (f : String) :
    ((addDependencyWith env st d f).deps_per_file f).map Dependency.filename =
      (st.deps_per_file f).map Dependency.filename ++
        (if env.isPrefixBundled d.prefix_ = true ∧
            d.filename ∉ (st.deps_per_file f).map Dependency.filename
          then [d.filename] else []) := by
  have h := congrArg (List.map (fun c : Bool × String × String × String => c.2.1))
    (addDependencyWith_per_file_core env st d f)
  rw [List.map_append, List.map_map, List.map_map] at h
  rw [show (fun c : Bool × String × String × String => c.2.1) ∘ Dependency.core =
    Dependency.filename from rfl] at h
  rw [h]
  split <;> rfl

theorem NoDupNames_addDependencyWith (env : Env) (st : State) (d : Dependency) (f : String)
    (h : NoDupNames st) : NoDupNames (addDependencyWith env st d f) := by
  constructor
  · rw [addDependencyWith_deps_filename]
    exact nodup_append_if h.1 _ _ (fun hc => hc.2)
  · intro b
    by_cases hb : b = f
    · subst hb
      rw [addDependencyWith_per_file_filename]
      exact nodup_append_if (h.2 b) _ _ (fun hc => hc.2)
    · rw [addDependencyWith_per_file_other env st d f b hb]
      exact h.2 b

theorem NoDupNames_addDependency (env : Env) (st : State) (path f : String)
    (h : NoDupNames st) : NoDupNames (addDependency env st path f) :=
  NoDupNames_addDependencyWith env _ _ f h

theorem NoDupNames_init (s : Settings) : NoDupNames (State.init s) := by
  simp [NoDupNames, State.init]

/-- C2. From the empty flat collection and empty per-binary lists, after any
finite sequence of `addDependency` calls no two entries of `deps` and no two
entries of one `deps_per_file[binary]` have the same file name: both for the
calls as the program makes them (a path and a dependent file, the constructor
run on them) and for calls whose constructed `Dependency` is arbitrary. -/
theorem addDependency_no_duplicate_names (env : Env) (s : Settings) :
    (∀ calls : List (String × String),
      NoDupNames (calls.foldl (fun st c => addDependency env st c.1 c.2) (State.init s))) ∧
    (∀ calls : List (Dependency × String),
      NoDupNames (calls.foldl (fun st c => addDependencyWith env st c.1 c.2) (State.init s))) := by
  constructor
  · intro calls
    have key : ∀ (st : State), NoDupNames st →
        NoDupNames (calls.foldl (fun st c => addDependency env st c.1 c.2) st) := by
      induction calls with
      | nil => intro st h; exact h
      | cons c cs ih =>
        intro st h
        exact ih _ (NoDupNames_addDependency env st c.1 c.2 h)
    exact key _ (NoDupNames_init s)
  · intro calls
    have key : ∀ (st : State), NoDupNames st →
        NoDupNames (calls.foldl (fun st c => addDependencyWith env st c.1 c.2) st) := by
      induction calls with
      | nil => intro st h; exact h
      | cons c cs ih =>
        intro st h
        exact ih _ (NoDupNames_addDependencyWith env st c.1 c.2 h)
    exact key _ (NoDupNames_init s)

/-! ## Rewriting references -/

theorem fixDependentFiles_target (env : Env) (missingPrefixes : Bool) (d : Dependency)
    (file : String) :
    ∀ a ∈ d.fixDependentFiles env missingPrefixes file,
      ∃ old, a = Action.changeInstallName file old (env.insideLibPath ++ d.new_name) := by
  intro a ha
  unfold Dependency.fixDependentFiles at ha
  cases missingPrefixes <;>
    simp only [List.mem_append, List.mem_singleton, List.mem_map, if_true, if_false,
      Bool.false_eq_true, List.not_mem_nil, or_false, Dependency.getInnerPath] at ha
  · rcases ha with h | ⟨x, _, h⟩
    · exact ⟨_, h⟩
    · exact ⟨_, h.symm⟩
  · rcases ha with (h | ⟨x, _, h⟩) | h | ⟨x, _, h⟩
    · exact ⟨_, h⟩
    · exact ⟨_, h.symm⟩
    · exact ⟨_, h⟩
    · exact ⟨_, h.symm⟩

theorem fixDependentFiles_old (env : Env) (missingPrefixes : Bool) (d : Dependency)
    (file old : String) :
    Action.changeInstallName file old (env.insideLibPath ++ d.new_name) ∈
        d.fixDependentFiles env missingPrefixes file ↔
      old = d.prefix_ ++ d.filename ∨ old ∈ d.symlinks ∨
        (missingPrefixes = true ∧ old = d.filename) := by
  unfold Dependency.fixDependentFiles
  cases missingPrefixes <;>
    simp [Dependency.getInnerPath, Dependency.getOriginalPath]
  tauto

/-- C7. The rewrites `fixDependentFiles` issues for a dependency `d` and a binary
`file` all target `file` and all install `insideLibPath + new_name`; the old
references rewritten are the canonical location and every alias of `d`, and in
addition the bare file name exactly when the missing-prefix flag is set. -/
theorem fixDependentFiles_spec (env : Env) (missingPrefixes : Bool) (d : Dependency)
    (file : String) :
    (∀ a ∈ d.fixDependentFiles env missingPrefixes file,
      ∃ old, a = Action.changeInstallName file old (env.insideLibPath ++ d.new_name)) ∧
    (∀ old, Action.changeInstallName file old (env.insideLibPath ++ d.new_name) ∈
        d.fixDependentFiles env missingPrefixes file ↔
      old = d.prefix_ ++ d.filename ∨ old ∈ d.symlinks ∨
        (missingPrefixes = true ∧ old = d.filename)) :=
  ⟨fixDependentFiles_target env missingPrefixes d file,
    fun old => fixDependentFiles_old env missingPrefixes d file old⟩

/-! ## Fixing reference roots -/

theorem rpathsToFix_eq (s : Settings) (original_file : String) :
    rpathsToFix s original_file = s.getRpathsForFile original_file := by
  unfold rpathsToFix Settings.fileHasRpath Settings.getRpathsForFile
  cases s.rpaths_per_file original_file <;> simp

theorem fixRpathsLoop_outcome (env : Env) (f : String) (roots : List String) :
    (fixRpathsLoop env f roots).2 = Outcome.continue ∨
    (fixRpathsLoop env f roots).2 = Outcome.exit 1 := by
  induction roots with
  | nil => exact Or.inl rfl
  | cons r rs ih =>
    unfold fixRpathsLoop
    by_cases h : env.systemp (rpathCommand env r f) = 0
    · simpa [h] using ih
    · simp [h]

theorem fixRpathsLoop_continue (env : Env) (f : String) (roots : List String) :
    (fixRpathsLoop env f roots).2 = Outcome.continue ↔
      ∀ r ∈ roots, env.systemp (rpathCommand env r f) = 0 := by
  induction roots with
  | nil => simp [fixRpathsLoop]
  | cons r rs ih =>
    unfold fixRpathsLoop
    by_cases h : env.systemp (rpathCommand env r f) = 0
    · simp [h, ih]
    · simp [h]

theorem fixRpathsLoop_success (env : Env) (f : String) (roots : List String)
    (h : ∀ r ∈ roots, env.systemp (rpathCommand env r f) = 0) :
    (fixRpathsLoop env f roots).1 = roots.map (fun r => Action.systemp (rpathCommand env r f)) := by
  induction roots with
  | nil => rfl
  | cons r rs ih =>
    have h0 := h r (List.mem_cons_self _ _)
    have ih := ih (fun x hx => h x (List.mem_cons_of_mem _ hx))
    unfold fixRpathsLoop
    simp [h0, ih]

theorem fixRpathsLoop_failure (env : Env) (f : String) (roots : List String)
    (h : (fixRpathsLoop env f roots).2 ≠ Outcome.continue) :
    ∃ pre r post, roots = pre ++ r :: post ∧
      (∀ x ∈ pre, env.systemp (rpathCommand env x f) = 0) ∧
      env.systemp (rpathCommand env r f) ≠ 0 ∧
      (fixRpathsLoop env f roots).1 =
        (pre ++ [r]).map (fun x => Action.systemp (rpathCommand env x f)) := by
  induction roots with
  | nil => exact absurd rfl h
  | cons r rs ih =>
    by_cases h0 : env.systemp (rpathCommand env r f) = 0
    · have hrs : (fixRpathsLoop env f rs).2 ≠ Outcome.continue := by
        intro e
        apply h
        unfold fixRpathsLoop
        simp [h0, e]
      obtain ⟨pre, x, post, e1, e2, e3, e4⟩ := ih hrs
      refine ⟨r :: pre, x, post, by simp [e1], ?_, e3, ?_⟩
      · intro y hy
        rcases List.mem_cons.1 hy with e | hy
        · exact e ▸ h0
        · exact e2 y hy
      · unfold fixRpathsLoop
        simp [h0, e4]
    · refine ⟨[], r, rs, rfl, by simp, h0, ?_⟩
      unfold fixRpathsLoop
      simp [h0]

/-- C8. With the rewriter a function from command to exit status,
`fixRpathsOnFile(original_file, file_to_fix)` ends the run, with exit status 1,
if and only if the command of some reference root recorded for `original_file`
fails; the commands issued are then those of the roots up to and including the
first failing one. When every command succeeds the run continues and the
commands issued are one per recorded root, in order, each the
`install_name_tool -rpath` call replacing that root by `insideLibPath` in
`file_to_fix`. -/
theorem fixRpathsOnFile_spec (env : Env) (s : Settings) (original_file file_to_fix : String) :
    (∀ r, rpathCommand env r file_to_fix =
      "install_name_tool -rpath " ++ r ++ " " ++ env.insideLibPath ++ " " ++ file_to_fix) ∧
    ((fixRpathsOnFile env s original_file file_to_fix).2 = Outcome.exit 1 ↔
      ∃ r ∈ s.getRpathsForFile original_file,
        env.systemp (rpathCommand env r file_to_fix) ≠ 0) ∧
    ((fixRpathsOnFile env s original_file file_to_fix).2 = Outcome.continue ↔
      ∀ r ∈ s.getRpathsForFile original_file,
        env.systemp (rpathCommand env r file_to_fix) = 0) ∧
    ((fixRpathsOnFile env s original_file file_to_fix).2 = Outcome.exit 1 →
      ∃ pre r post, s.getRpathsForFile original_file = pre ++ r :: post ∧
        (∀ x ∈ pre, env.systemp (rpathCommand env x file_to_fix) = 0) ∧
        env.systemp (rpathCommand env r file_to_fix) ≠ 0 ∧
        (fixRpathsOnFile env s original_file file_to_fix).1 =
          (pre ++ [r]).map (fun x => Action.systemp (rpathCommand env x file_to_fix))) ∧
    ((fixRpathsOnFile env s original_file file_to_fix).2 = Outcome.continue →
      (fixRpathsOnFile env s original_file file_to_fix).1 =
        (s.getRpathsForFile original_file).map
          (fun r => Action.systemp (rpathCommand env r file_to_fix))) := by
  unfold fixRpathsOnFile
  rw [rpathsToFix_eq]
  have hc := fixRpathsLoop_continue env file_to_fix (s.getRpathsForFile original_file)
  have ho := fixRpathsLoop_outcome env file_to_fix (s.getRpathsForFile original_file)
  refine ⟨?_, ?_, hc, ?_, ?_⟩
  · intro r
    simp [rpathCommand, String.append_assoc]
  · constructor
    · intro h
      by_contra hne
      push_neg at hne
      have := hc.2 hne
      rw [this] at h
      exact Outcome.noConfusion h
    · rintro ⟨r, hr, hf⟩
      rcases ho with h | h
      · exact absurd (hc.1 h r hr) hf
      · exact h
  · intro h
    apply fixRpathsLoop_failure
    rw [h]
    exact fun e => Outcome.noConfusion e
  · intro h
    exact fixRpathsLoop_success env file_to_fix _ (hc.1 h)

/-! ## Frame lemmas: what the helper steps leave alone -/

theorem foldl_preserves {α β : Type} (P : β → Prop) (f : β → α → β) (xs : List α)
    (h : ∀ b x, x ∈ xs → P b → P (f b x)) (b : β) (hb : P b) : P (xs.foldl f b) := by
  induction xs generalizing b with
  | nil => exact hb
  | cons x xs ih =>
    exact ih (fun b y hy => h b y (List.mem_cons_of_mem _ hy)) _
      (h b x (List.mem_cons_self _ _) hb)

theorem collectRpaths_frame (env : Env) (st : State) (f : String) :
    (collectRpaths env st f).deps = st.deps ∧
    (collectRpaths env st f).deps_per_file = st.deps_per_file ∧
    (collectRpaths env st f).deps_collected = st.deps_collected ∧
    (collectRpaths env st f).frameworks = st.frameworks ∧
    (collectRpaths env st f).settings.missingPrefixes = st.settings.missingPrefixes ∧
    (collectRpaths env st f).settings.searchPaths = st.settings.searchPaths ∧
    (collectRpaths env st f).settings.filesToFix = st.settings.filesToFix := by
  unfold collectRpaths
  exact foldl_preserves
    (fun s : State => s.deps = st.deps ∧ s.deps_per_file = st.deps_per_file ∧
      s.deps_collected = st.deps_collected ∧ s.frameworks = st.frameworks ∧
      s.settings.missingPrefixes = st.settings.missingPrefixes ∧
      s.settings.searchPaths = st.settings.searchPaths ∧
      s.settings.filesToFix = st.settings.filesToFix)
    _ _ (fun b x _ hb => by simpa [Settings.addRpathForFile] using hb) st
    ⟨rfl, rfl, rfl, rfl, rfl, rfl, rfl⟩

theorem collectRpathsForFilename_frame (env : Env) (st : State) (f : String) :
    (collectRpathsForFilename env st f).deps = st.deps ∧
    (collectRpathsForFilename env st f).deps_per_file = st.deps_per_file ∧
    (collectRpathsForFilename env st f).deps_collected = st.deps_collected ∧
    (collectRpathsForFilename env st f).frameworks = st.frameworks ∧
    (collectRpathsForFilename env st f).settings.missingPrefixes = st.settings.missingPrefixes ∧
    (collectRpathsForFilename env st f).settings.searchPaths = st.settings.searchPaths ∧
    (collectRpathsForFilename env st f).settings.filesToFix = st.settings.filesToFix := by
  unfold collectRpathsForFilename
  split
  · exact collectRpaths_frame env st f
  · exact ⟨rfl, rfl, rfl, rfl, rfl, rfl, rfl⟩

theorem addDependencyWith_deps_collected (env : Env) (st : State) (d : Dependency) (f : String) :
    (addDependencyWith env st d f).deps_collected = st.deps_collected := by
  unfold addDependencyWith
  simp only [Dependency.getPrefix]
  by_cases hb : env.isPrefixBundled d.prefix_ = true <;>
    by_cases h2 : (mergeInto d (st.deps_per_file f)).1 = true <;>
    by_cases hin : (mergeInto d st.deps).1 = true <;>
    by_cases h3 : d.isFramework = true <;>
    simp [hb, hin, h2, h3]

theorem addDependency_deps_collected (env : Env) (st : State) (l f : String) :
    (addDependency env st l f).deps_collected = st.deps_collected := by
  unfold addDependency
  rw [addDependencyWith_deps_collected]

theorem collectDependenciesForFileLines_subset (env : Env) (st : State) (file : String) :
    ∀ l ∈ collectDependenciesForFileLines env st file [],
      l ∈ env.parseLoadCommands file "LC_LOAD_DYLIB" "name" := by
  intro l hl
  unfold collectDependenciesForFileLines collectDependencies at hl
  split at hl
  · simpa using hl
  · simp at hl

/-- A property of the state kept by the reference-root bookkeeping and by every
`addDependency` call on a bundled line the reader lists for its dependent file
(a file satisfying `F`, as every scanned file does) is kept by one step of the
expansion loop. -/
theorem subStep_preserves_on (env : Env) (P : State → Prop) (F : String → Prop)
    (hF : ∀ st f, P st → P (collectRpathsForFilename env st f))
    (hA : ∀ st l f, F f → l ∈ env.parseLoadCommands f "LC_LOAD_DYLIB" "name" →
      env.isPrefixBundled l = true → P st → P (addDependency env st l f))
    (hS : ∀ st d, P st → d ∈ st.deps → F (scanPath env st d))
    (st : State) (n : Nat) (h : P st) : P (subStep env st n) := by
  unfold subStep
  cases hd : st.deps.get? n with
  | none => exact h
  | some d =>
    simp only
    have hFd : F (scanPath env st d) := hS st d h (List.get?_mem hd)
    apply foldl_preserves P
    · intro b l hl hb
      have hl2 := collectDependenciesForFileLines_subset env st _ l hl
      unfold subLine
      by_cases hbun : env.isPrefixBundled l = true
      · simp only [hbun, Bool.not_true, Bool.false_eq_true, if_false]
        apply hA _ _ _ hFd hl2 hbun
        split
        · exact hF _ _ hb
        · exact hb
      · simpa [hbun] using hb
    · exact hF _ _ h

theorem subPass_preserves_on (env : Env) (P : State → Prop) (F : String → Prop)
    (hF : ∀ st f, P st → P (collectRpathsForFilename env st f))
    (hA : ∀ st l f, F f → l ∈ env.parseLoadCommands f "LC_LOAD_DYLIB" "name" →
      env.isPrefixBundled l = true → P st → P (addDependency env st l f))
    (hS : ∀ st d, P st → d ∈ st.deps → F (scanPath env st d))
    (st : State) (h : P st) : P (subPass env st) := by
  unfold subPass
  exact foldl_preserves P _ _
    (fun b n _ hb => subStep_preserves_on env P F hF hA hS b n hb) st h

theorem subPass_preserves (env : Env) (P : State → Prop)
    (hF : ∀ st f, P st → P (collectRpathsForFilename env st f))
    (hA : ∀ st l f, l ∈ env.parseLoadCommands f "LC_LOAD_DYLIB" "name" →
      env.isPrefixBundled l = true → P st → P (addDependency env st l f))
    (st : State) (h : P st) : P (subPass env st) :=
  subPass_preserves_on env P (fun _ => True) hF (fun st l f _ => hA st l f)
    (fun _ _ _ _ => trivial) st h

theorem collectDependenciesForFile_preserves (env : Env) (P : State → Prop)
    (hF : ∀ st f, P st → P (collectRpathsForFilename env st f))
    (hA : ∀ st l f, l ∈ env.parseLoadCommands f "LC_LOAD_DYLIB" "name" →
      env.isPrefixBundled l = true → P st → P (addDependency env st l f))
    (hC : ∀ (st : State) c, P st → P { st with deps_collected := c })
    (st : State) (f : String) (h : P st) : P (collectDependenciesForFile env st f) := by
  unfold collectDependenciesForFile
  apply hC
  apply foldl_preserves P
  · intro b l hl hb
    have hl2 := collectDependenciesForFileLines_subset env st _ l hl
    unfold collectLine
    by_cases hbun : env.isPrefixBundled l = true
    · simp only [hbun, Bool.not_true, Bool.false_eq_true, if_false]
      apply hA _ _ _ hl2 hbun
      split
      · exact hF _ _ hb
      · exact hb
    · simpa [hbun] using hb
  · exact hF _ _ h

theorem seed_preserves (env : Env) (P : State → Prop)
    (hF : ∀ st f, P st → P (collectRpathsForFilename env st f))
    (hA : ∀ st l f, l ∈ env.parseLoadCommands f "LC_LOAD_DYLIB" "name" →
      env.isPrefixBundled l = true → P st → P (addDependency env st l f))
    (hC : ∀ (st : State) c, P st → P { st with deps_collected := c })
    (st : State) (roots : List String) (h : P st) : P (seed env st roots) := by
  unfold seed
  exact foldl_preserves P _ _
    (fun b f _ hb => collectDependenciesForFile_preserves env P hF hA hC b f hb) st h

/-! ## Termination of the expansion loop -/

theorem addDependency_length_le (env : Env) (st : State) (l f : String) :
    st.deps.length ≤ (addDependency env st l f).deps.length := by
  have h := congrArg List.length (addDependencyWith_deps_filename env
    { st with settings := (Dependency.new env st.settings l f).2 }
    (Dependency.new env st.settings l f).1 f)
  simp only [List.length_map, List.length_append] at h
  unfold addDependency
  simp only [h]
  exact Nat.le_add_right _ _

theorem subPass_length_le (env : Env) (st : State) :
    st.deps.length ≤ (subPass env st).deps.length :=
  subPass_preserves env (fun s => st.deps.length ≤ s.deps.length)
    (fun s f h => by
      show st.deps.length ≤ (collectRpathsForFilename env s f).deps.length
      rw [(collectRpathsForFilename_frame env s f).1]
      exact h)
    (fun s l f _ _ h => le_trans h (addDependency_length_le env s l f))
    st (le_refl _)

theorem NamesWithin_addDependency (env : Env) (names : Finset String) (st : State)
    (l f : String) (hn : (Dependency.new env st.settings l f).1.filename ∈ names)
    (h : NamesWithin names st) : NamesWithin names (addDependency env st l f) := by
  have e := addDependencyWith_deps_filename env
    { st with settings := (Dependency.new env st.settings l f).2 }
    (Dependency.new env st.settings l f).1 f
  unfold addDependency
  constructor
  · rw [e]
    exact nodup_append_if h.1 _ _ (fun hc => hc.2)
  · intro x hx
    rw [e, List.mem_append] at hx
    rcases hx with hx | hx
    · exact h.2 x hx
    · split at hx
      · rw [List.mem_singleton] at hx
        exact hx ▸ hn
      · simp at hx

theorem NamesWithin_length (names : Finset String) (st : State) (h : NamesWithin names st) :
    st.deps.length ≤ names.card := by
  have h1 : (st.deps.map Dependency.filename).toFinset.card = st.deps.length := by
    rw [List.toFinset_card_of_nodup h.1, List.length_map]
  rw [← h1]
  apply Finset.card_le_card
  intro x hx
  exact h.2 x (List.mem_toFinset.1 hx)

theorem NamesWithin_subPass (env : Env) (names : Finset String)
    (hnames : ∀ s f l, l ∈ env.parseLoadCommands f "LC_LOAD_DYLIB" "name" →
      (Dependency.new env s l f).1.filename ∈ names)
    (st : State) (h : NamesWithin names st) : NamesWithin names (subPass env st) :=
  subPass_preserves env (NamesWithin names)
    (fun s f h => by
      unfold NamesWithin
      rw [(collectRpathsForFilename_frame env s f).1]
      exact h)
    (fun s l f hl _ h => NamesWithin_addDependency env names s l f (hnames _ _ _ hl) h)
    st h

theorem NamesWithin_seed (env : Env) (names : Finset String)
    (hnames : ∀ s f l, l ∈ env.parseLoadCommands f "LC_LOAD_DYLIB" "name" →
      (Dependency.new env s l f).1.filename ∈ names)
    (s : Settings) (roots : List String) :
    NamesWithin names (seed env (State.init s) roots) :=
  seed_preserves env (NamesWithin names)
    (fun s f h => by
      unfold NamesWithin
      rw [(collectRpathsForFilename_frame env s f).1]
      exact h)
    (fun s l f hl _ h => NamesWithin_addDependency env names s l f (hnames _ _ _ hl) h)
    (fun s c h => h)
    _ roots (by simp [NamesWithin, State.init])

theorem collectSubDependencies_mono (env : Env) (fuel k : Nat) (st r : State)
    (h : collectSubDependencies env fuel st = some r) :
    collectSubDependencies env (fuel + k) st = some r := by
  induction fuel generalizing st with
  | zero => simp [collectSubDependencies] at h
  | succ n ih =>
    rw [Nat.succ_add]
    unfold collectSubDependencies at h ⊢
    simp only at h ⊢
    split
    · rename_i heq
      simpa [heq] using h
    · rename_i hne
      simp only [hne, if_false] at h
      exact ih _ h

/-- The loop leaves when the passes keep an invariant that bounds the size of
the flat collection. -/
theorem loop_exits (env : Env) (I : State → Prop) (B : Nat)
    (hI : ∀ st, I st → I (subPass env st))
    (hB : ∀ st, I st → st.deps.length ≤ B)
    (k : Nat) (st : State) (h : I st) (hk : B - st.deps.length ≤ k) :
    ∃ fuel last, fuel ≤ k + 1 ∧ I last ∧
      st.deps.length ≤ last.deps.length ∧
      collectSubDependencies env fuel st = some (subPass env last) ∧
      (subPass env last).deps.length = last.deps.length := by
  induction k generalizing st with
  | zero =>
    have h1 := hB _ (hI st h)
    have h2 := subPass_length_le env st
    have h3 : (subPass env st).deps.length = st.deps.length := by omega
    exact ⟨1, st, le_refl _, h, le_refl _, by simp [collectSubDependencies, h3], h3⟩
  | succ k ih =>
    by_cases h3 : (subPass env st).deps.length = st.deps.length
    · exact ⟨1, st, by omega, h, le_refl _, by simp [collectSubDependencies, h3], h3⟩
    · have h1 := hI st h
      have h2 := subPass_length_le env st
      obtain ⟨fuel, last, hf, hl, hlen, hrun, hfix⟩ := ih (subPass env st) h1 (by omega)
      refine ⟨fuel + 1, last, by omega, hl, by omega, ?_, hfix⟩
      simp [collectSubDependencies, h3, hrun]

theorem collectSubDependencies_exits (env : Env) (names : Finset String)
    (hnames : ∀ s f l, l ∈ env.parseLoadCommands f "LC_LOAD_DYLIB" "name" →
      (Dependency.new env s l f).1.filename ∈ names)
    (k : Nat) (st : State) (h : NamesWithin names st) (hk : names.card - st.deps.length ≤ k) :
    ∃ fuel last, fuel ≤ k + 1 ∧ NamesWithin names last ∧
      st.deps.length ≤ last.deps.length ∧
      collectSubDependencies env fuel st = some (subPass env last) ∧
      (subPass env last).deps.length = last.deps.length :=
  loop_exits env (NamesWithin names) names.card
    (fun st h => NamesWithin_subPass env names hnames st h)
    (fun st h => NamesWithin_length names st h) k st h hk

/-- C9. When every reference the reader lists resolves to a file name of the
finite set `names`, the expansion loop of `collectSubDependencies`, started
after any seed phase, terminates: a pass never shrinks the flat collection, a
pass after which the loop goes on has strictly enlarged it, the collection
never has more entries than `names` has elements, and so within
`names.card + 1` passes the loop leaves, returning the state after a pass
that added nothing. -/
theorem collectSubDependencies_terminates (env : Env) (names : Finset String)
    (s : Settings) (roots : List String)
    (hnames : ∀ s f l, l ∈ env.parseLoadCommands f "LC_LOAD_DYLIB" "name" →
      (Dependency.new env s l f).1.filename ∈ names) :
    (∀ st, st.deps.length ≤ (subPass env st).deps.length) ∧
    (∀ st, (subPass env st).deps.length ≠ st.deps.length →
      st.deps.length < (subPass env st).deps.length) ∧
    (∀ st, NamesWithin names st →
      NamesWithin names (subPass env st) ∧ (subPass env st).deps.length ≤ names.card) ∧
    (∃ fuel last, fuel ≤ names.card + 1 ∧
      collectSubDependencies env fuel (seed env (State.init s) roots) = some (subPass env last) ∧
      (subPass env last).deps.length = last.deps.length ∧
      (∀ more, collectSubDependencies env (fuel + more) (seed env (State.init s) roots) =
        some (subPass env last))) := by
  refine ⟨subPass_length_le env, ?_, ?_, ?_⟩
  · intro st hne
    exact lt_of_le_of_ne (subPass_length_le env st) (fun e => hne e.symm)
  · intro st h
    have h1 := NamesWithin_subPass env names hnames st h
    exact ⟨h1, NamesWithin_length names _ h1⟩
  · obtain ⟨fuel, last, hf, _, _, hrun, hfix⟩ :=
      collectSubDependencies_exits env names hnames names.card _
        (NamesWithin_seed env names hnames s roots) (Nat.sub_le _ _)
    exact ⟨fuel, last, hf, hrun, hfix,
      fun more => collectSubDependencies_mono env fuel more _ _ hrun⟩

/-! ## The concrete environments -/

theorem lookup_getD_mem (loads : List (String × List String)) (f l : String)
    (h : l ∈ (loads.lookup f).getD []) : ∃ ls, (f, ls) ∈ loads ∧ l ∈ ls := by
  induction loads with
  | nil => simp at h
  | cons e es ih =>
    obtain ⟨k, v⟩ := e
    by_cases hk : f = k
    · subst hk
      simp only [List.lookup_cons, beq_self_eq_true, Option.getD_some] at h
      exact ⟨v, List.mem_cons_self _ _, h⟩
    · have hb : (f == k) = false := by simpa using hk
      simp only [List.lookup_cons, hb] at h
      obtain ⟨ls, h1, h2⟩ := ih h
      exact ⟨ls, List.mem_cons_of_mem _ h1, h2⟩

theorem mkEnv_parse_mem (files : List String) (links : List (String × String))
    (loads : List (String × List String)) (f cmd v l : String)
    (h : l ∈ (Example.mkEnv files links loads).parseLoadCommands f cmd v) :
    ∃ ls, (f, ls) ∈ loads ∧ l ∈ ls := by
  unfold Example.mkEnv at h
  simp only at h
  split at h
  · exact lookup_getD_mem loads f l h
  · simp at h

theorem chainEnv_names (s : Settings) (f l : String)
    (h : l ∈ Example.chainEnv.parseLoadCommands f "LC_LOAD_DYLIB" "name") :
    (Dependency.new Example.chainEnv s l f).1.filename ∈
      ({"libA.dylib", "libB.dylib"} : Finset String) := by
  obtain ⟨ls, h1, h2⟩ := mkEnv_parse_mem _ _ _ _ _ _ _ h
  simp only [List.mem_cons, Prod.mk.injEq, List.mem_nil_iff, or_false] at h1
  rcases h1 with ⟨_, rfl⟩ | ⟨_, rfl⟩ | ⟨_, rfl⟩ <;>
    simp only [List.mem_singleton] at h2 <;> subst h2
  · have e : (Dependency.new Example.chainEnv s "/opt/lib/libA.dylib" f).1.filename =
        "libA.dylib" := rfl
    rw [e]; decide
  · have e : (Dependency.new Example.chainEnv s "/opt/lib/libB.dylib" f).1.filename =
        "libB.dylib" := rfl
    rw [e]; decide
  · have e : (Dependency.new Example.chainEnv s "/opt/lib/libB.dylib" f).1.filename =
        "libB.dylib" := rfl
    rw [e]; decide

/-- C9 at a concrete input: the chain application / libA / libB, two file names. -/
theorem collectSubDependencies_terminates_witness :
    (∀ st, st.deps.length ≤ (subPass Example.chainEnv st).deps.length) ∧
    (∀ st, (subPass Example.chainEnv st).deps.length ≠ st.deps.length →
      st.deps.length < (subPass Example.chainEnv st).deps.length) ∧
    (∀ st, NamesWithin {"libA.dylib", "libB.dylib"} st →
      NamesWithin {"libA.dylib", "libB.dylib"} (subPass Example.chainEnv st) ∧
      (subPass Example.chainEnv st).deps.length ≤
        ({"libA.dylib", "libB.dylib"} : Finset String).card) ∧
    (∃ fuel last, fuel ≤ ({"libA.dylib", "libB.dylib"} : Finset String).card + 1 ∧
      collectSubDependencies Example.chainEnv fuel
        (seed Example.chainEnv (State.init (Example.settings ["/app/main"])) ["/app/main"]) =
          some (subPass Example.chainEnv last) ∧
      (subPass Example.chainEnv last).deps.length = last.deps.length ∧
      (∀ more, collectSubDependencies Example.chainEnv (fuel + more)
        (seed Example.chainEnv (State.init (Example.settings ["/app/main"])) ["/app/main"]) =
          some (subPass Example.chainEnv last))) :=
  collectSubDependencies_terminates Example.chainEnv {"libA.dylib", "libB.dylib"}
    (Example.settings ["/app/main"]) ["/app/main"] chainEnv_names

/-! ## Only bundled prefixes enter the working set -/

/-- The constructor on a reference that resolves to a file found where its name
says, in a bundled directory: the file is split into prefix and name, the
reference is kept as an alias when it differs from the resolved path, and the
settings are untouched. -/
theorem new_found (env : Env) (s : Settings) (path b A : String)
    (hA : Dependency.resolveOriginal env s (env.rtrim path) b = A)
    (hb : env.isPrefixBundled (Dependency.slashedPrefix env A) = true)
    (hne : Dependency.locatedPrefix env A ≠ "")
    (hex : env.fileExists (Dependency.locatedPrefix env A ++ Dependency.locatedName env A) = true) :
    Dependency.new env s path b =
      ({ is_framework := Dependency.containsFramework A,
         filename := Dependency.locatedName env A,
         prefix_ := Dependency.locatedPrefix env A,
         symlinks := if A ≠ env.rtrim path then [env.rtrim path] else [],
         new_name := Dependency.locatedName env A }, s) := by
  unfold Dependency.new
  simp only [hA]
  by_cases h : A = env.rtrim path
  · subst h
    simp [hb, hne, hex]
  · simp [h, hb, hne, hex, Dependency.addSymlink]

theorem mem_alias_list (A p x : String) :
    x ∈ (if A ≠ p then [p] else []) ↔ x = p ∧ x ≠ A := by
  by_cases h : A = p
  · subst h
    simp only [ne_eq, not_true_eq_false, if_false, List.not_mem_nil, false_iff, not_and, not_not]
    exact fun e => e
  · simp only [ne_eq, h, not_false_eq_true, if_true, List.mem_singleton]
    constructor
    · rintro rfl
      exact ⟨rfl, fun e => h e.symm⟩
    · exact fun e => e.1

theorem addDependencyWith_init_deps (env : Env) (s : Settings) (d : Dependency) (f : String)
    (hb : env.isPrefixBundled d.prefix_ = true) :
    (addDependencyWith env (State.init s) d f).deps = [d] := by
  unfold addDependencyWith
  by_cases h3 : d.isFramework = true <;>
    simp [State.init, mergeInto, Dependency.getPrefix, hb, h3]

theorem addDependencyWith_same_deps (env : Env) (st : State) (d1 d2 : Dependency) (f : String)
    (h1 : st.deps = [d1]) (hn : d2.filename = d1.filename) :
    (addDependencyWith env st d2 f).deps = [d2.symlinks.foldl Dependency.addSymlink d1] := by
  have hm : mergeInto d2 st.deps = (true, [d2.symlinks.foldl Dependency.addSymlink d1]) := by
    rw [h1]
    simp [mergeInto, Dependency.mergeIfSameAs, Dependency.getOriginalFileName, hn]
  unfold addDependencyWith
  simp only [Dependency.getPrefix]
  by_cases hb : env.isPrefixBundled d2.prefix_ = true <;>
    by_cases h2 : (mergeInto d2 (st.deps_per_file f)).1 = true <;>
    simp [hb, h2, hm]

theorem merge_two_references (env : Env) (s : Settings) (p1 p2 b1 b2 A : String)
    (h1 : ∀ s, Dependency.resolveOriginal env s (env.rtrim p1) b1 = A)
    (h2 : ∀ s, Dependency.resolveOriginal env s (env.rtrim p2) b2 = A)
    (hb : env.isPrefixBundled (Dependency.slashedPrefix env A) = true)
    (hb2 : env.isPrefixBundled (Dependency.locatedPrefix env A) = true)
    (hne : Dependency.locatedPrefix env A ≠ "")
    (hex : env.fileExists (Dependency.locatedPrefix env A ++ Dependency.locatedName env A) = true) :
    ∃ d, (addDependency env (addDependency env (State.init s) p1 b1) p2 b2).deps = [d] ∧
      d.filename = Dependency.locatedName env A ∧
      d.prefix_ = Dependency.locatedPrefix env A ∧
      ∀ x, x ∈ d.symlinks ↔ (x = env.rtrim p1 ∨ x = env.rtrim p2) ∧ x ≠ A := by
  have e1 : (addDependency env (State.init s) p1 b1).deps =
      [(Dependency.new env s p1 b1).1] := by
    unfold addDependency
    have := addDependencyWith_init_deps env (Dependency.new env s p1 b1).2
      (Dependency.new env s p1 b1).1 b1
      (by rw [new_found env s p1 b1 A (h1 s) hb hne hex]; exact hb2)
    simpa [State.init] using this
  have n1 := new_found env s p1 b1 A (h1 s) hb hne hex
  have n2 := new_found env (addDependency env (State.init s) p1 b1).settings p2 b2 A
    (h2 _) hb hne hex
  refine ⟨(Dependency.new env (addDependency env (State.init s) p1 b1).settings
    p2 b2).1.symlinks.foldl Dependency.addSymlink (Dependency.new env s p1 b1).1, ?_, ?_, ?_, ?_⟩
  · unfold addDependency
    exact addDependencyWith_same_deps env _ (Dependency.new env s p1 b1).1 _ b2
      (by simpa using e1) (by
        show (Dependency.new env (addDependency env (State.init s) p1 b1).settings
          p2 b2).1.filename = _
        rw [n1, n2])
  · rw [(foldl_addSymlink_fields _ _).1, n1]
  · rw [(foldl_addSymlink_fields _ _).2.1, n1]
  · intro x
    rw [mem_foldl_addSymlink]
    show x ∈ (Dependency.new env s p1 b1).1.symlinks ∨
      x ∈ (Dependency.new env (addDependency env (State.init s) p1 b1).settings
        p2 b2).1.symlinks ↔ _
    rw [n1, n2]
    simp only [mem_alias_list]
    tauto

/-- C6 as stated fails: `/usr/local/lib/libX.dylib` is the file itself and
`/opt/lib/libX.dylib` a link to it; after both `addDependency` calls the one
Dependency lists only the link as alias, the path of the file is its canonical
location and not an alias. -/
theorem alias_of_resolved_path_counterexample :
    Example.linkEnv.realpath "/usr/local/lib/libX.dylib" = some "/usr/local/lib/libX.dylib" ∧
    Example.linkEnv.realpath "/opt/lib/libX.dylib" = some "/usr/local/lib/libX.dylib" ∧
    (addDependency Example.linkEnv
      (addDependency Example.linkEnv (State.init (Example.settings ["/app/b1", "/app/b2"]))
        "/usr/local/lib/libX.dylib" "/app/b1")
      "/opt/lib/libX.dylib" "/app/b2").deps =
      [{ is_framework := false, filename := "libX.dylib", prefix_ := "/usr/local/lib/",
         symlinks := ["/opt/lib/libX.dylib"], new_name := "libX.dylib" }] ∧
    ¬ (∃ d ∈ (addDependency Example.linkEnv
        (addDependency Example.linkEnv (State.init (Example.settings ["/app/b1", "/app/b2"]))
          "/usr/local/lib/libX.dylib" "/app/b1")
        "/opt/lib/libX.dylib" "/app/b2").deps,
      "/usr/local/lib/libX.dylib" ∈ d.symlinks ∧ "/opt/lib/libX.dylib" ∈ d.symlinks) := by
  decide

/-- C6, amended. Two references `p1` (from `b1`) and `p2` (from `b2`) that resolve
to the same file `A`, found where its name says in a bundled directory, give,
in either order of the two `addDependency` calls from the empty state, exactly
one Dependency in `deps`, with the prefix and file name of `A`; its aliases are
exactly those of the two (trimmed) references that differ from `A`: a reference
equal to the resolved path is the canonical location, not an alias. -/
theorem alias_merge (env : Env) (s : Settings) (p1 p2 b1 b2 A : String)
    (h1 : ∀ s, Dependency.resolveOriginal env s (env.rtrim p1) b1 = A)
    (h2 : ∀ s, Dependency.resolveOriginal env s (env.rtrim p2) b2 = A)
    (hb : env.isPrefixBundled (Dependency.slashedPrefix env A) = true)
    (hb2 : env.isPrefixBundled (Dependency.locatedPrefix env A) = true)
    (hne : Dependency.locatedPrefix env A ≠ "")
    (hex : env.fileExists (Dependency.locatedPrefix env A ++ Dependency.locatedName env A) = true) :
    (∃ d, (addDependency env (addDependency env (State.init s) p1 b1) p2 b2).deps = [d] ∧
      d.filename = Dependency.locatedName env A ∧
      d.prefix_ = Dependency.locatedPrefix env A ∧
      ∀ x, x ∈ d.symlinks ↔ (x = env.rtrim p1 ∨ x = env.rtrim p2) ∧ x ≠ A) ∧
    (∃ d, (addDependency env (addDependency env (State.init s) p2 b2) p1 b1).deps = [d] ∧
      d.filename = Dependency.locatedName env A ∧
      d.prefix_ = Dependency.locatedPrefix env A ∧
      ∀ x, x ∈ d.symlinks ↔ (x = env.rtrim p1 ∨ x = env.rtrim p2) ∧ x ≠ A) := by
  constructor
  · exact merge_two_references env s p1 p2 b1 b2 A h1 h2 hb hb2 hne hex
  · obtain ⟨d, e1, e2, e3, e4⟩ := merge_two_references env s p2 p1 b2 b1 A h2 h1 hb hb2 hne hex
    refine ⟨d, e1, e2, e3, fun x => ?_⟩
    rw [e4 x]
    tauto

/-- C6 amended, at the library and its link. -/
theorem alias_merge_witness :
    (∃ d, (addDependency Example.linkEnv
        (addDependency Example.linkEnv (State.init (Example.settings ["/app/b1", "/app/b2"]))
          "/usr/local/lib/libX.dylib" "/app/b1") "/opt/lib/libX.dylib" "/app/b2").deps = [d] ∧
      d.filename = Dependency.locatedName Example.linkEnv "/usr/local/lib/libX.dylib" ∧
      d.prefix_ = Dependency.locatedPrefix Example.linkEnv "/usr/local/lib/libX.dylib" ∧
      ∀ x, x ∈ d.symlinks ↔
        (x = Example.linkEnv.rtrim "/usr/local/lib/libX.dylib" ∨
          x = Example.linkEnv.rtrim "/opt/lib/libX.dylib") ∧
        x ≠ "/usr/local/lib/libX.dylib") ∧
    (∃ d, (addDependency Example.linkEnv
        (addDependency Example.linkEnv (State.init (Example.settings ["/app/b1", "/app/b2"]))
          "/opt/lib/libX.dylib" "/app/b2") "/usr/local/lib/libX.dylib" "/app/b1").deps = [d] ∧
      d.filename = Dependency.locatedName Example.linkEnv "/usr/local/lib/libX.dylib" ∧
      d.prefix_ = Dependency.locatedPrefix Example.linkEnv "/usr/local/lib/libX.dylib" ∧
      ∀ x, x ∈ d.symlinks ↔
        (x = Example.linkEnv.rtrim "/usr/local/lib/libX.dylib" ∨
          x = Example.linkEnv.rtrim "/opt/lib/libX.dylib") ∧
        x ≠ "/usr/local/lib/libX.dylib") :=
  alias_merge Example.linkEnv (Example.settings ["/app/b1", "/app/b2"])
    "/usr/local/lib/libX.dylib" "/opt/lib/libX.dylib" "/app/b1" "/app/b2"
    "/usr/local/lib/libX.dylib" (fun _ => rfl) (fun _ => rfl) (by decide) (by decide)
    (by decide) (by decide)

/-! ## Which references of a binary are rewritten -/

theorem addDependencyWith_deps_eq (env : Env) (st : State) (d : Dependency) (f : String) :
    (addDependencyWith env st d f).deps =
      (mergeInto d st.deps).2 ++
        (if env.isPrefixBundled d.prefix_ = true ∧ (mergeInto d st.deps).1 = false
          then [d] else []) := by
  unfold addDependencyWith
  simp only [Dependency.getPrefix]
  by_cases hb : env.isPrefixBundled d.prefix_ = true <;>
    by_cases h2 : (mergeInto d (st.deps_per_file f)).1 = true <;>
    by_cases hin : (mergeInto d st.deps).1 = true <;>
    by_cases h3 : d.isFramework = true <;>
    simp [hb, hin, h2, h3]

theorem addDependencyWith_per_file_eq (env : Env) (st : State) (d : Dependency) (f : String) :
    (addDependencyWith env st d f).deps_per_file f =
      (mergeInto d (st.deps_per_file f)).2 ++
        (if env.isPrefixBundled d.prefix_ = true ∧ (mergeInto d (st.deps_per_file f)).1 = false
          then [d] else []) := by
  unfold addDependencyWith
  simp only [Dependency.getPrefix]
  by_cases hb : env.isPrefixBundled d.prefix_ = true <;>
    by_cases h2 : (mergeInto d (st.deps_per_file f)).1 = true <;>
    by_cases hin : (mergeInto d st.deps).1 = true <;>
    by_cases h3 : d.isFramework = true <;>
    simp [hb, hin, h2, h3]

theorem mergeIfSameAs_symlinks_mono (d o : Dependency) :
    ∀ x ∈ o.symlinks, x ∈ (d.mergeIfSameAs o).2.symlinks := by
  intro x hx
  unfold Dependency.mergeIfSameAs
  split
  · exact (mem_foldl_addSymlink _ _ _).2 (Or.inl hx)
  · exact hx

theorem mergeInto_symlinks_mono (d : Dependency) (xs : List Dependency) :
    ∀ o ∈ xs, ∃ o' ∈ (mergeInto d xs).2, ∀ x ∈ o.symlinks, x ∈ o'.symlinks := by
  induction xs with
  | nil => intro o ho; simp at ho
  | cons y ys ih =>
    intro o ho
    rcases List.mem_cons.1 ho with rfl | ho
    · exact ⟨_, by simp [mergeInto], mergeIfSameAs_symlinks_mono d o⟩
    · obtain ⟨o', h1, h2⟩ := ih o ho
      exact ⟨o', by simp [mergeInto, h1], h2⟩

theorem mergeInto_absorbs (d : Dependency) (xs : List Dependency)
    (h : (mergeInto d xs).1 = true) :
    ∃ o' ∈ (mergeInto d xs).2, ∀ x ∈ d.symlinks, x ∈ o'.symlinks := by
  induction xs with
  | nil => simp [mergeInto] at h
  | cons y ys ih =>
    simp only [mergeInto, Bool.or_eq_true] at h
    rcases h with h | h
    · refine ⟨(d.mergeIfSameAs y).2, by simp [mergeInto], ?_⟩
      intro x hx
      rw [mergeIfSameAs_fst, decide_eq_true_eq] at h
      have : d.mergeIfSameAs y = (true, d.symlinks.foldl Dependency.addSymlink y) := by
        simp [Dependency.mergeIfSameAs, Dependency.getOriginalFileName, h]
      rw [this]
      exact (mem_foldl_addSymlink _ _ _).2 (Or.inr hx)
    · obtain ⟨o', h1, h2⟩ := ih h
      exact ⟨o', by simp [mergeInto, h1], h2⟩

theorem HasAlias_addDependencyWith (env : Env) (st : State) (d : Dependency) (g f x : String)
    (h : HasAlias f x st) : HasAlias f x (addDependencyWith env st d g) := by
  obtain ⟨o, ho, hx⟩ := h
  by_cases hg : f = g
  · subst hg
    obtain ⟨o', h1, h2⟩ := mergeInto_symlinks_mono d _ o ho
    refine ⟨o', ?_, h2 x hx⟩
    rw [addDependencyWith_per_file_eq]
    exact List.mem_append_left _ h1
  · refine ⟨o, ?_, hx⟩
    rw [addDependencyWith_per_file_other env st d g f hg]
    exact ho

theorem HasAlias_of_addDependencyWith (env : Env) (st : State) (d : Dependency) (f x : String)
    (hb : env.isPrefixBundled d.prefix_ = true) (hx : x ∈ d.symlinks) :
    HasAlias f x (addDependencyWith env st d f) := by
  unfold HasAlias
  rw [addDependencyWith_per_file_eq]
  by_cases h : (mergeInto d (st.deps_per_file f)).1 = true
  · obtain ⟨o', h1, h2⟩ := mergeInto_absorbs d _ h
    exact ⟨o', List.mem_append_left _ h1, h2 x hx⟩
  · refine ⟨d, List.mem_append_right _ ?_, hx⟩
    simp [hb, h]

theorem HasAlias_frame (f x : String) (st st' : State)
    (h : st'.deps_per_file = st.deps_per_file) (hx : HasAlias f x st) : HasAlias f x st' := by
  unfold HasAlias
  rw [h]
  exact hx

theorem HasAlias_collectLine (env : Env) (f g x : String) (st : State) (line : String)
    (h : HasAlias f x st) : HasAlias f x (collectLine env g st line) := by
  unfold collectLine
  split
  · exact h
  · unfold addDependency
    apply HasAlias_addDependencyWith
    split
    · exact HasAlias_frame f x _ _ (collectRpathsForFilename_frame env st g).2.1 h
    · exact h

theorem new_symlinks (env : Env) (s : Settings) (path b : String) :
    (Dependency.new env s path b).1.symlinks =
      if Dependency.resolveOriginal env s (env.rtrim path) b ≠ env.rtrim path
        then [env.rtrim path] else [] := by
  unfold Dependency.new
  simp only
  by_cases h : Dependency.resolveOriginal env s (env.rtrim path) b = env.rtrim path <;>
    split <;> simp [h, Dependency.addSymlink]

theorem HasAlias_of_collectLine (env : Env) (f : String) (st : State) (line : String)
    (hl : env.isPrefixBundled line = true)
    (hsym : ∀ s, Dependency.resolveOriginal env s (env.rtrim line) f ≠ env.rtrim line)
    (hbun : ∀ s, env.isPrefixBundled (Dependency.new env s line f).1.prefix_ = true) :
    HasAlias f (env.rtrim line) (collectLine env f st line) := by
  unfold collectLine
  simp only [hl, Bool.not_true, Bool.false_eq_true, if_false]
  unfold addDependency
  apply HasAlias_of_addDependencyWith
  · exact hbun _
  · rw [new_symlinks]
    simp [hsym]

theorem foldl_establish {α β : Type} (Q : β → Prop) (step : β → α → β) (xs : List α) (x : α)
    (hx : x ∈ xs) (hest : ∀ b, Q (step b x)) (hpres : ∀ b y, Q b → Q (step b y)) (b : β) :
    Q (xs.foldl step b) := by
  induction xs generalizing b with
  | nil => simp at hx
  | cons y ys ih =>
    rcases List.mem_cons.1 hx with rfl | hx
    · exact foldl_preserves Q step ys (fun b y _ hb => hpres b y hb) _ (hest b)
    · exact ih hx _

/-- A bundled line that is a symbolic name (it resolves to another path) is an alias
of an entry of `deps_per_file[f]` after `collectDependenciesForFile(f)`. -/
theorem HasAlias_collectDependenciesForFile (env : Env) (st : State) (f line : String)
    (hf : f ∉ st.deps_collected)
    (hmem : line ∈ env.parseLoadCommands f "LC_LOAD_DYLIB" "name")
    (hl : env.isPrefixBundled line = true)
    (hsym : ∀ s, Dependency.resolveOriginal env s (env.rtrim line) f ≠ env.rtrim line)
    (hbun : ∀ s, env.isPrefixBundled (Dependency.new env s line f).1.prefix_ = true) :
    HasAlias f (env.rtrim line) (collectDependenciesForFile env st f) := by
  unfold collectDependenciesForFile
  apply HasAlias_frame f _ (List.foldl (collectLine env f) (collectRpathsForFilename env st f)
    (collectDependenciesForFileLines env st f [])) _ rfl
  apply foldl_establish _ _ _ line
  · simpa [collectDependenciesForFileLines, collectDependencies, hf] using hmem
  · intro b
    exact HasAlias_of_collectLine env f b line hl hsym hbun
  · intro b y hb
    exact HasAlias_collectLine env f f _ b y hb

theorem applyActions_eq_map (file : String) (refs : List String) (acts : List Action) :
    applyActions file refs acts = refs.map (fun r => acts.foldl (applyOne file) r) := by
  unfold applyActions
  induction acts generalizing refs with
  | nil => simp
  | cons a rest ih =>
    simp only [List.foldl_cons]
    rw [ih, List.map_map]
    rfl

theorem fold_applyOne_closed (file : String) (S : String → Prop) (acts : List Action)
    (hS : ∀ old new, Action.changeInstallName file old new ∈ acts → S new)
    (r : String) (hr : S r) : S (acts.foldl (applyOne file) r) := by
  induction acts generalizing r with
  | nil => exact hr
  | cons a rest ih =>
    simp only [List.foldl_cons]
    apply ih (fun old new h => hS old new (List.mem_cons_of_mem _ h))
    cases a with
    | changeInstallName g old new =>
      simp only [applyOne]
      split
      · rename_i hc
        exact hS old new (by rw [hc.1]; exact List.mem_cons_self _ _)
      · exact hr
    | createDestDir => exact hr
    | copyToAppBundle d => exact hr
    | systemp c => exact hr

theorem fold_applyOne_hit (file : String) (S : String → Prop) (acts : List Action)
    (hS : ∀ old new, Action.changeInstallName file old new ∈ acts → S new)
    (r new : String) (hit : Action.changeInstallName file r new ∈ acts) :
    S (acts.foldl (applyOne file) r) := by
  induction acts generalizing r with
  | nil => simp at hit
  | cons a rest ih =>
    simp only [List.foldl_cons]
    have hS' : ∀ old new, Action.changeInstallName file old new ∈ rest → S new :=
      fun old new h => hS old new (List.mem_cons_of_mem _ h)
    by_cases hr : applyOne file r a = r
    · rw [hr]
      rcases List.mem_cons.1 hit with e | hit
      · rw [← e] at hr
        simp only [applyOne, and_self, if_true] at hr
        rw [← hr]
        exact fold_applyOne_closed file S rest hS' _ (hS r new hit)
      · exact ih hS' r hit
    · apply fold_applyOne_closed file S rest hS'
      cases a with
      | changeInstallName g old new' =>
        simp only [applyOne] at hr ⊢
        split
        · rename_i hc
          exact hS old new' (by rw [hc.1]; exact List.mem_cons_self _ _)
        · rename_i hc
          simp [hc] at hr
      | createDestDir => exact absurd rfl hr
      | copyToAppBundle d => exact absurd rfl hr
      | systemp c => exact absurd rfl hr

theorem fold_applyOne_miss (file : String) (acts : List Action) (r : String)
    (h : ∀ old new, Action.changeInstallName file old new ∈ acts → old ≠ r) :
    acts.foldl (applyOne file) r = r := by
  induction acts with
  | nil => rfl
  | cons a rest ih =>
    simp only [List.foldl_cons]
    have h1 : applyOne file r a = r := by
      cases a with
      | changeInstallName g old new =>
        simp only [applyOne]
        split
        · rename_i hc
          exact absurd hc.2.symm (h old new (by rw [hc.1]; exact List.mem_cons_self _ _))
        · rfl
      | createDestDir => rfl
      | copyToAppBundle d => rfl
      | systemp c => rfl
    rw [h1]
    exact ih (fun old new hm => h old new (List.mem_cons_of_mem _ hm))

theorem mem_deps_collected_collect (env : Env) (st : State) (f : String) :
    f ∈ (collectDependenciesForFile env st f).deps_collected := by
  unfold collectDependenciesForFile setInsert
  simp only
  split
  · assumption
  · simp

theorem changeLibPathsOnFile_collected (env : Env) (st : State) (f : String)
    (h : f ∈ st.deps_collected) :
    changeLibPathsOnFile env st f =
      (st, (st.deps_per_file f).flatMap
        (fun d => d.fixDependentFiles env st.settings.missingPrefixes f)) := by
  simp [changeLibPathsOnFile, h]

theorem rewrittenRefs_eq (env : Env) (st : State) (f : String) :
    rewrittenRefs env st f =
      (env.parseLoadCommands f "LC_LOAD_DYLIB" "name").map (fun r =>
        (((collectDependenciesForFile env st f).deps_per_file f).flatMap
          (fun d => d.fixDependentFiles env
            (collectDependenciesForFile env st f).settings.missingPrefixes f)).foldl
          (applyOne f) r) := by
  unfold rewrittenRefs
  rw [changeLibPathsOnFile_collected env _ f (mem_deps_collected_collect env st f),
    applyActions_eq_map]

theorem rewrite_new_is_inner (env : Env) (mp : Bool) (ds : List Dependency) (f old new : String)
    (h : Action.changeInstallName f old new ∈
      ds.flatMap (fun d => d.fixDependentFiles env mp f)) :
    ∃ d ∈ ds, new = env.insideLibPath ++ d.new_name ∧
      (old = d.prefix_ ++ d.filename ∨ old ∈ d.symlinks ∨ (mp = true ∧ old = d.filename)) := by
  obtain ⟨d, hd, ha⟩ := List.mem_flatMap.1 h
  obtain ⟨o, ho⟩ := fixDependentFiles_target env mp d f _ ha
  have hn : new = env.insideLibPath ++ d.new_name := by
    injection ho with _ _ h3
  subst hn
  exact ⟨d, hd, rfl, (fixDependentFiles_old env mp d f old).1 ha⟩

theorem rewritten_of_match (env : Env) (st : State) (f : String) (i : Nat) (r : String)
    (hi : (env.parseLoadCommands f "LC_LOAD_DYLIB" "name")[i]? = some r)
    (hm : ∃ d ∈ (collectDependenciesForFile env st f).deps_per_file f,
      r = d.prefix_ ++ d.filename ∨ r ∈ d.symlinks ∨
        ((collectDependenciesForFile env st f).settings.missingPrefixes = true ∧
          r = d.filename)) :
    ∃ d' ∈ (collectDependenciesForFile env st f).deps_per_file f,
      (rewrittenRefs env st f)[i]? = some (env.insideLibPath ++ d'.new_name) := by
  obtain ⟨d, hd, hr⟩ := hm
  rw [rewrittenRefs_eq, List.getElem?_map, hi]
  simp only [Option.map_some', Option.some.injEq]
  have hit : Action.changeInstallName f r (env.insideLibPath ++ d.new_name) ∈
      ((collectDependenciesForFile env st f).deps_per_file f).flatMap
        (fun d => d.fixDependentFiles env
          (collectDependenciesForFile env st f).settings.missingPrefixes f) :=
    List.mem_flatMap.2 ⟨d, hd, (fixDependentFiles_old env _ d f r).2 hr⟩
  exact fold_applyOne_hit f
    (fun x => ∃ d' ∈ (collectDependenciesForFile env st f).deps_per_file f,
      x = env.insideLibPath ++ d'.new_name) _
    (fun old new h => by
      obtain ⟨d', h1, h2, _⟩ := rewrite_new_is_inner env _ _ f old new h
      exact ⟨d', h1, h2⟩)
    r _ hit

/-- C3, the code at two inputs where it misses the claim. The application
references `/a/libX.dylib` and `/b/libX.dylib`, both bundled; the second is
merged into the Dependency of the first (same file name) and only aliases are
carried over by the merge, not the path of the merged record, so after
`collectDependenciesForFile` and `changeLibPathsOnFile` the reference
`/b/libX.dylib` still has its original string, where the claim has it equal to
`insideLibPath + new_name`. Likewise a reference `/old/libZ.dylib` whose file
is only found through the search path keeps its string: the rewrites issued
are for `/opt/lib/libZ.dylib` and the bare `libZ.dylib`. -/
theorem same_leaf_reference_unrewritten :
    Example.twinEnv.parseLoadCommands "/app/main" "LC_LOAD_DYLIB" "name" =
      ["/a/libX.dylib", "/b/libX.dylib"] ∧
    Example.twinEnv.isPrefixBundled "/b/libX.dylib" = true ∧
    Example.twinEnv.isPrefixBundled
      (Dependency.new Example.twinEnv (Example.settings ["/app/main"])
        "/b/libX.dylib" "/app/main").1.prefix_ = true ∧
    (collectDependenciesForFile Example.twinEnv
      (State.init (Example.settings ["/app/main"])) "/app/main").deps_per_file "/app/main" =
      [{ is_framework := false, filename := "libX.dylib", prefix_ := "/a/",
         symlinks := [], new_name := "libX.dylib" }] ∧
    rewrittenRefs Example.twinEnv (State.init (Example.settings ["/app/main"])) "/app/main" =
      ["@executable_path/../libs/libX.dylib", "/b/libX.dylib"] ∧
    (collectDependenciesForFile Example.searchEnv
      (State.init Example.searchSettings) "/app/main").deps_per_file "/app/main" =
      [{ is_framework := false, filename := "libZ.dylib", prefix_ := "/opt/lib/",
         symlinks := [], new_name := "libZ.dylib" }] ∧
    (collectDependenciesForFile Example.searchEnv
      (State.init Example.searchSettings) "/app/main").settings.missingPrefixes = true ∧
    rewrittenRefs Example.searchEnv (State.init Example.searchSettings) "/app/main" =
      ["/old/libZ.dylib"] := by
  decide

/-- What the two calls do rewrite. With a binary's references a list of strings
and `changeInstallName` replacing the entries equal to the old string, after
`collectDependenciesForFile(f)` and `changeLibPathsOnFile(f)` (`f` not collected
before): a reference that is the canonical location or an alias of a Dependency
of `deps_per_file[f]`, or its bare file name when the missing-prefix flag is set,
equals `insideLibPath + new_name` of a Dependency of `deps_per_file[f]`; this
covers every bundled reference that is a symbolic name (it resolves to a
different path, with a bundled prefix); and a reference that matches no
canonical location, alias or (with the flag) file name of `deps_per_file[f]`
keeps its string. -/
theorem references_rewritten (env : Env) (st : State) (f : String)
    (hf : f ∉ st.deps_collected) :
    (∀ (i : Nat) (r : String),
      (env.parseLoadCommands f "LC_LOAD_DYLIB" "name")[i]? = some r →
      (∃ d ∈ (collectDependenciesForFile env st f).deps_per_file f,
        r = d.prefix_ ++ d.filename ∨ r ∈ d.symlinks ∨
          ((collectDependenciesForFile env st f).settings.missingPrefixes = true ∧
            r = d.filename)) →
      ∃ d' ∈ (collectDependenciesForFile env st f).deps_per_file f,
        (rewrittenRefs env st f)[i]? = some (env.insideLibPath ++ d'.new_name)) ∧
    (∀ (i : Nat) (l : String),
      (env.parseLoadCommands f "LC_LOAD_DYLIB" "name")[i]? = some l →
      env.isPrefixBundled l = true → env.rtrim l = l →
      (∀ s, Dependency.resolveOriginal env s l f ≠ l) →
      (∀ s, env.isPrefixBundled (Dependency.new env s l f).1.prefix_ = true) →
      ∃ d' ∈ (collectDependenciesForFile env st f).deps_per_file f,
        (rewrittenRefs env st f)[i]? = some (env.insideLibPath ++ d'.new_name)) ∧
    (∀ (i : Nat) (r : String),
      (env.parseLoadCommands f "LC_LOAD_DYLIB" "name")[i]? = some r →
      (∀ d ∈ (collectDependenciesForFile env st f).deps_per_file f,
        r ≠ d.prefix_ ++ d.filename ∧ r ∉ d.symlinks ∧
          ¬ ((collectDependenciesForFile env st f).settings.missingPrefixes = true ∧
            r = d.filename)) →
      (rewrittenRefs env st f)[i]? = some r) := by
  refine ⟨fun i r hi hm => rewritten_of_match env st f i r hi hm, ?_, ?_⟩
  · intro i l hi hl ht hsym hbun
    apply rewritten_of_match env st f i l hi
    obtain ⟨d, hd, hx⟩ := HasAlias_collectDependenciesForFile env st f l hf
      (List.getElem?_mem hi) hl (by rw [ht]; exact hsym) hbun
    rw [ht] at hx
    exact ⟨d, hd, Or.inr (Or.inl hx)⟩
  · intro i r hi hno
    rw [rewrittenRefs_eq, List.getElem?_map, hi]
    simp only [Option.map_some', Option.some.injEq]
    apply fold_applyOne_miss
    intro old new h e
    obtain ⟨d, hd, _, ho⟩ := rewrite_new_is_inner env _ _ f old new h
    obtain ⟨n1, n2, n3⟩ := hno d hd
    subst e
    rcases ho with ho | ho | ho
    · exact n1 ho
    · exact n2 ho
    · exact n3 ho

/-- The reference through a link is rewritten: `references_rewritten` at the
application that references a library through a link. -/
theorem references_rewritten_witness :
    "/app/b2" ∉ (State.init (Example.settings ["/app/b2"])).deps_collected ∧
    (Example.linkEnv.parseLoadCommands "/app/b2" "LC_LOAD_DYLIB" "name")[0]? =
      some "/opt/lib/libX.dylib" ∧
    ∃ d' ∈ (collectDependenciesForFile Example.linkEnv
        (State.init (Example.settings ["/app/b2"])) "/app/b2").deps_per_file "/app/b2",
      (rewrittenRefs Example.linkEnv (State.init (Example.settings ["/app/b2"])) "/app/b2")[0]? =
        some (Example.linkEnv.insideLibPath ++ d'.new_name) :=
  ⟨by decide, by decide,
    (references_rewritten Example.linkEnv (State.init (Example.settings ["/app/b2"])) "/app/b2"
      (by decide)).2.1 0 "/opt/lib/libX.dylib" (by decide) (by decide) (by decide)
      (fun s => by
        have e : Dependency.resolveOriginal Example.linkEnv s "/opt/lib/libX.dylib" "/app/b2" =
          "/usr/local/lib/libX.dylib" := rfl
        rw [e]
        decide)
      (fun s => by
        have e : (Dependency.new Example.linkEnv s "/opt/lib/libX.dylib" "/app/b2").1.prefix_ =
          "/usr/local/lib/" := rfl
        rw [e]
        decide)⟩

/-! ## The order of copies and rewrites in `bundleDependencies` -/

/-- When the copy of a library lists a library the resolver has not seen, the loop
body appends to `deps` and the loop over `deps` is invalidated. -/
theorem bundle_invalidated_example :
    Example.lateResolved.deps.map Dependency.filename = ["libA.dylib"] ∧
    (bundleDependencies Example.lateEnv Example.lateResolved).2.2 = none ∧
    (bundleDependencies Example.lateEnv Example.lateResolved).1.deps.map Dependency.filename =
      ["libA.dylib", "libC.dylib"] := by
  decide

theorem mem_children (env : Env) (s0 : Settings) (p : String) (d0 : Dependency) :
    d0 ∈ children env s0 p ↔
      ∃ l ∈ env.parseLoadCommands p "LC_LOAD_DYLIB" "name", env.isPrefixBundled l = true ∧
        (Dependency.new env s0 l p).1 = d0 ∧ env.isPrefixBundled d0.prefix_ = true := by
  unfold children
  simp only [List.mem_filter, List.mem_map]
  constructor
  · rintro ⟨⟨l, ⟨h1, h2⟩, h3⟩, h4⟩
    exact ⟨l, h1, h2, h3, h4⟩
  · rintro ⟨l, h1, h2, h3, h4⟩
    exact ⟨⟨l, ⟨h1, h2⟩, h3⟩, h4⟩

theorem core_fields {d d' : Dependency} (h : d.core = d'.core) :
    d.filename = d'.filename ∧ d.prefix_ = d'.prefix_ ∧
      d.getOriginalPath = d'.getOriginalPath := by
  simp only [Dependency.core, Prod.mk.injEq] at h
  obtain ⟨_, h2, h3, _⟩ := h
  exact ⟨h2, h3, by simp [Dependency.getOriginalPath, h2, h3]⟩

theorem addDependency_names (env : Env) (st : State) (l f : String) :
    (addDependency env st l f).names =
      st.names ++
        (if env.isPrefixBundled (Dependency.new env st.settings l f).1.prefix_ = true ∧
            (Dependency.new env st.settings l f).1.filename ∉ st.names
          then [(Dependency.new env st.settings l f).1.filename] else []) := by
  unfold addDependency State.names
  exact addDependencyWith_deps_filename env _ _ f

theorem addDependency_cores (env : Env) (st : State) (l f : String) :
    (addDependency env st l f).deps.map Dependency.core =
      st.deps.map Dependency.core ++
        (if env.isPrefixBundled (Dependency.new env st.settings l f).1.prefix_ = true ∧
            (Dependency.new env st.settings l f).1.filename ∉ st.names
          then [(Dependency.new env st.settings l f).1.core] else []) := by
  unfold addDependency State.names
  exact addDependencyWith_deps_core env _ _ f

theorem names_mono_addDependency (env : Env) (st : State) (l f x : String)
    (h : x ∈ st.names) : x ∈ (addDependency env st l f).names := by
  rw [addDependency_names]
  exact List.mem_append_left _ h

theorem names_of_addDependency (env : Env) (st : State) (l f : String)
    (hb : env.isPrefixBundled (Dependency.new env st.settings l f).1.prefix_ = true) :
    (Dependency.new env st.settings l f).1.filename ∈ (addDependency env st l f).names := by
  rw [addDependency_names]
  by_cases h : (Dependency.new env st.settings l f).1.filename ∈ st.names
  · exact List.mem_append_left _ h
  · apply List.mem_append_right
    simp [hb, h]

theorem names_frame (env : Env) (st : State) (f : String) :
    (collectRpathsForFilename env st f).names = st.names := by
  unfold State.names
  rw [(collectRpathsForFilename_frame env st f).1]

theorem names_mono_collectLine (env : Env) (f : String) (st : State) (l x : String)
    (h : x ∈ st.names) : x ∈ (collectLine env f st l).names := by
  unfold collectLine
  split
  · exact h
  · apply names_mono_addDependency
    split
    · rw [names_frame]; exact h
    · exact h

theorem names_mono_subLine (env : Env) (f : String) (st : State) (l x : String)
    (h : x ∈ st.names) : x ∈ (subLine env f st l).names := by
  unfold subLine
  split
  · exact h
  · apply names_mono_addDependency
    split
    · rw [names_frame]; exact h
    · exact h

theorem names_of_collectLine (env : Env) (s0 : Settings) (f : String) (st : State) (l : String)
    (hind : StateIndependent env)
    (hmem : l ∈ env.parseLoadCommands f "LC_LOAD_DYLIB" "name")
    (hl : env.isPrefixBundled l = true)
    (hb : env.isPrefixBundled (Dependency.new env s0 l f).1.prefix_ = true) :
    (Dependency.new env s0 l f).1.filename ∈ (collectLine env f st l).names := by
  unfold collectLine
  simp only [hl, Bool.not_true, Bool.false_eq_true, if_false]
  have key : ∀ st1 : State, (Dependency.new env s0 l f).1.filename ∈
      (addDependency env st1 l f).names := by
    intro st1
    have hc := core_fields (hind st1.settings s0 l f hmem)
    rw [← hc.1]
    apply names_of_addDependency
    rw [hc.2.1]
    exact hb
  exact key _

theorem names_of_subLine (env : Env) (s0 : Settings) (f : String) (st : State) (l : String)
    (hind : StateIndependent env)
    (hmem : l ∈ env.parseLoadCommands f "LC_LOAD_DYLIB" "name")
    (hl : env.isPrefixBundled l = true)
    (hb : env.isPrefixBundled (Dependency.new env s0 l f).1.prefix_ = true) :
    (Dependency.new env s0 l f).1.filename ∈ (subLine env f st l).names := by
  unfold subLine
  simp only [hl, Bool.not_true, Bool.false_eq_true, if_false]
  have key : ∀ st1 : State, (Dependency.new env s0 l f).1.filename ∈
      (addDependency env st1 l f).names := by
    intro st1
    have hc := core_fields (hind st1.settings s0 l f hmem)
    rw [← hc.1]
    apply names_of_addDependency
    rw [hc.2.1]
    exact hb
  exact key _

theorem Inv_frame (env : Env) (s0 : Settings) (roots : List String) (st : State) (f : String)
    (h : Inv env s0 roots st) : Inv env s0 roots (collectRpathsForFilename env st f) := by
  obtain ⟨h1, h2, h3⟩ := h
  have hf := collectRpathsForFilename_frame env st f
  refine ⟨?_, ?_, ?_⟩
  · unfold Sound
    rw [hf.1]
    exact h1
  · rw [names_frame]
    exact h2
  · intro g hg d0 hd0
    rw [names_frame]
    rw [hf.2.2.1] at hg
    exact h3 g hg d0 hd0

theorem reach_of_scannable (env : Env) (s0 : Settings) (roots : List String) (f : String)
    (d0 : Dependency) (hf : Scannable env s0 roots f) (hd : d0 ∈ children env s0 f) :
    Reach env s0 roots d0 := by
  rcases hf with hr | ⟨d, hd1, rfl⟩
  · exact Reach.root hr hd
  · exact Reach.step hd1 hd

theorem Inv_addDependency (env : Env) (s0 : Settings) (roots : List String)
    (hind : StateIndependent env) (st : State) (l f : String)
    (hf : Scannable env s0 roots f)
    (hmem : l ∈ env.parseLoadCommands f "LC_LOAD_DYLIB" "name")
    (hl : env.isPrefixBundled l = true)
    (h : Inv env s0 roots st) : Inv env s0 roots (addDependency env st l f) := by
  obtain ⟨h1, h2, h3⟩ := h
  refine ⟨?_, ?_, ?_⟩
  · intro d hd
    have hc : d.core ∈ (addDependency env st l f).deps.map Dependency.core :=
      List.mem_map_of_mem _ hd
    rw [addDependency_cores, List.mem_append] at hc
    rcases hc with hc | hc
    · obtain ⟨d', hd', e⟩ := List.mem_map.1 hc
      obtain ⟨d0, hr, e0⟩ := h1 d' hd'
      exact ⟨d0, hr, e.symm.trans e0⟩
    · split at hc
      · rename_i hcond
        rw [List.mem_singleton] at hc
        have hi := hind st.settings s0 l f hmem
        refine ⟨(Dependency.new env s0 l f).1, ?_, hc.trans hi⟩
        apply reach_of_scannable env s0 roots f _ hf
        rw [mem_children]
        exact ⟨l, hmem, hl, rfl, by rw [← (core_fields hi).2.1]; exact hcond.1⟩
      · simp at hc
  · rw [addDependency_names]
    exact nodup_append_if h2 _ _ (fun hc => hc.2)
  · intro g hg d0 hd0
    rw [addDependency_deps_collected] at hg
    exact names_mono_addDependency env st l f _ (h3 g hg d0 hd0)

theorem scanPath_of_sound (env : Env) (s0 : Settings) (roots : List String)
    (hplain : PlainPaths env s0 roots) (st : State) (d : Dependency)
    (h : Sound env s0 roots st) (hd : d ∈ st.deps) :
    scanPath env st d = d.getOriginalPath ∧ Scannable env s0 roots d.getOriginalPath := by
  obtain ⟨d0, hr, e⟩ := h d hd
  have hp := (core_fields e).2.2
  have hrp := hplain d0 hr
  rw [← hp] at hrp
  refine ⟨by simp [scanPath, hrp], Or.inr ⟨d0, hr, hp.symm⟩⟩

theorem Inv_subStep (env : Env) (s0 : Settings) (roots : List String)
    (hind : StateIndependent env) (hplain : PlainPaths env s0 roots)
    (st : State) (n : Nat) (h : Inv env s0 roots st) : Inv env s0 roots (subStep env st n) :=
  subStep_preserves_on env (Inv env s0 roots) (Scannable env s0 roots)
    (fun st f h => Inv_frame env s0 roots st f h)
    (fun st l f hf hmem hl h => Inv_addDependency env s0 roots hind st l f hf hmem hl h)
    (fun st d h hd => by
      rw [(scanPath_of_sound env s0 roots hplain st d h.1 hd).1]
      exact (scanPath_of_sound env s0 roots hplain st d h.1 hd).2)
    st n h

theorem Inv_subPass (env : Env) (s0 : Settings) (roots : List String)
    (hind : StateIndependent env) (hplain : PlainPaths env s0 roots)
    (st : State) (h : Inv env s0 roots st) : Inv env s0 roots (subPass env st) := by
  unfold subPass
  exact foldl_preserves _ _ _ (fun b n _ hb => Inv_subStep env s0 roots hind hplain b n hb) st h

theorem Inv_collectLine (env : Env) (s0 : Settings) (roots : List String)
    (hind : StateIndependent env) (st : State) (l f : String)
    (hf : Scannable env s0 roots f)
    (hmem : l ∈ env.parseLoadCommands f "LC_LOAD_DYLIB" "name")
    (h : Inv env s0 roots st) : Inv env s0 roots (collectLine env f st l) := by
  unfold collectLine
  by_cases hl : env.isPrefixBundled l = true
  · simp only [hl, Bool.not_true, Bool.false_eq_true, if_false]
    apply Inv_addDependency env s0 roots hind _ l f hf hmem hl
    split
    · exact Inv_frame env s0 roots st f h
    · exact h
  · simpa [hl] using h

/-- Scanning a line list puts the library of every bundled line into the flat
collection. -/
theorem scanned_of_fold (env : Env) (s0 : Settings) (f : String)
    (step : State → String → State)
    (hmono : ∀ st l x, x ∈ st.names → x ∈ (step st l).names)
    (hest : ∀ st l, l ∈ env.parseLoadCommands f "LC_LOAD_DYLIB" "name" →
      env.isPrefixBundled l = true →
      env.isPrefixBundled (Dependency.new env s0 l f).1.prefix_ = true →
      (Dependency.new env s0 l f).1.filename ∈ (step st l).names)
    (st : State) :
    Scanned env s0
      ((env.parseLoadCommands f "LC_LOAD_DYLIB" "name").foldl step st) f := by
  intro d0 hd0
  obtain ⟨l, hmem, hl, e, hb⟩ := (mem_children env s0 f d0).1 hd0
  subst e
  exact foldl_establish (fun s => (Dependency.new env s0 l f).1.filename ∈ s.names) step _ l hmem
    (fun b => hest b l hmem hl hb) (fun b y hb' => hmono b y _ hb') st

theorem Inv_collectDependenciesForFile (env : Env) (s0 : Settings) (roots : List String)
    (hind : StateIndependent env) (st : State) (r : String) (hr : r ∈ roots)
    (h : Inv env s0 roots st) :
    Inv env s0 roots (collectDependenciesForFile env st r) ∧
    r ∈ (collectDependenciesForFile env st r).deps_collected ∧
    ∀ g ∈ st.deps_collected, g ∈ (collectDependenciesForFile env st r).deps_collected := by
  have hfold : Inv env s0 roots
      ((collectDependenciesForFileLines env st r []).foldl (collectLine env r)
        (collectRpathsForFilename env st r)) :=
    foldl_preserves _ _ _
      (fun b l hl hb => Inv_collectLine env s0 roots hind b l r (Or.inl hr)
        (collectDependenciesForFileLines_subset env st r l hl) hb)
      _ (Inv_frame env s0 roots st r h)
  have hcoll : ((collectDependenciesForFileLines env st r []).foldl (collectLine env r)
        (collectRpathsForFilename env st r)).deps_collected = st.deps_collected := by
    apply foldl_preserves (fun s : State => s.deps_collected = st.deps_collected)
    · intro b l _ hb
      show (collectLine env r b l).deps_collected = _
      unfold collectLine
      split
      · exact hb
      · rw [addDependency_deps_collected]
        split
        · rw [(collectRpathsForFilename_frame env b r).2.2.1]; exact hb
        · exact hb
    · exact (collectRpathsForFilename_frame env st r).2.2.1
  refine ⟨?_, mem_deps_collected_collect env st r, ?_⟩
  · obtain ⟨h1, h2, h3⟩ := hfold
    refine ⟨h1, h2, ?_⟩
    intro g hg
    have hg' : g ∈ setInsert r st.deps_collected := by
      have : (collectDependenciesForFile env st r).deps_collected =
          setInsert r st.deps_collected := by
        unfold collectDependenciesForFile
        simp only [hcoll]
      rw [this] at hg
      exact hg
    by_cases hin : g ∈ st.deps_collected
    · exact h3 g (by rw [hcoll]; exact hin)
    · have hgr : g = r := by
        unfold setInsert at hg'
        split at hg'
        · exact absurd hg' hin
        · rcases List.mem_append.1 hg' with h' | h'
          · exact absurd h' hin
          · simpa using h'
      subst hgr
      have hlines : collectDependenciesForFileLines env st g [] =
          env.parseLoadCommands g "LC_LOAD_DYLIB" "name" := by
        simp [collectDependenciesForFileLines, collectDependencies, hin]
      show Scanned env s0 ((collectDependenciesForFileLines env st g []).foldl
        (collectLine env g) (collectRpathsForFilename env st g)) g
      rw [hlines]
      exact scanned_of_fold env s0 g (collectLine env g)
        (fun st l x hx => names_mono_collectLine env g st l x hx)
        (fun st l hm hl hb => names_of_collectLine env s0 g st l hind hm hl hb) _
  · intro g hg
    have : (collectDependenciesForFile env st r).deps_collected =
        setInsert r st.deps_collected := by
      unfold collectDependenciesForFile
      simp only [hcoll]
    rw [this]
    unfold setInsert
    split
    · exact hg
    · exact List.mem_append_left _ hg

theorem prefix_get {α : Type} (xs ys : List α) (h : xs <+: ys) (n : Nat) (a : α)
    (hx : xs.get? n = some a) : ys.get? n = some a := by
  obtain ⟨t, rfl⟩ := h
  induction xs generalizing n with
  | nil => simp at hx
  | cons x xs ih =>
    cases n with
    | zero => simpa using hx
    | succ n => simpa using ih n (by simpa using hx)

theorem names_mono_subStep (env : Env) (st : State) (n : Nat) (x : String)
    (h : x ∈ st.names) : x ∈ (subStep env st n).names :=
  subStep_preserves_on env (fun s => x ∈ s.names) (fun _ => True)
    (fun s f h => by
      show x ∈ (collectRpathsForFilename env s f).names
      rw [names_frame]; exact h)
    (fun s l f _ _ _ h => names_mono_addDependency env s l f x h)
    (fun _ _ _ _ => trivial) st n h

theorem cores_prefix_subStep (env : Env) (X : List (Bool × String × String × String))
    (st : State) (n : Nat) (h : X <+: st.deps.map Dependency.core) :
    X <+: (subStep env st n).deps.map Dependency.core :=
  subStep_preserves_on env (fun s => X <+: s.deps.map Dependency.core) (fun _ => True)
    (fun s f h => by
      show X <+: (collectRpathsForFilename env s f).deps.map Dependency.core
      rw [(collectRpathsForFilename_frame env s f).1]; exact h)
    (fun s l f _ _ _ h => by
      show X <+: (addDependency env s l f).deps.map Dependency.core
      rw [addDependency_cores]
      exact List.IsPrefix.trans h (List.prefix_append _ _))
    (fun _ _ _ _ => trivial) st n h

theorem deps_collected_subStep (env : Env) (st : State) (n : Nat) :
    (subStep env st n).deps_collected = st.deps_collected :=
  subStep_preserves_on env (fun s => s.deps_collected = st.deps_collected) (fun _ => True)
    (fun s f h => by
      show (collectRpathsForFilename env s f).deps_collected = _
      rw [(collectRpathsForFilename_frame env s f).2.2.1]; exact h)
    (fun s l f _ _ _ h => by
      show (addDependency env s l f).deps_collected = _
      rw [addDependency_deps_collected]; exact h)
    (fun _ _ _ _ => trivial) st n rfl

theorem deps_collected_subPass (env : Env) (st : State) :
    (subPass env st).deps_collected = st.deps_collected := by
  unfold subPass
  exact foldl_preserves (fun s : State => s.deps_collected = st.deps_collected) _ _
    (fun b n _ hb => by
      show (subStep env b n).deps_collected = _
      rw [deps_collected_subStep]; exact hb) st rfl

/-- One step of the expansion loop puts the libraries referenced by the
dependency it visits into the flat collection. -/
theorem subStep_scans (env : Env) (s0 : Settings) (roots : List String)
    (hind : StateIndependent env) (hplain : PlainPaths env s0 roots)
    (st : State) (n : Nat) (d : Dependency) (h : Inv env s0 roots st)
    (hd : st.deps.get? n = some d) :
    Scanned env s0 (subStep env st n) d.getOriginalPath := by
  have hsp := (scanPath_of_sound env s0 roots hplain st d h.1 (List.get?_mem hd)).1
  unfold subStep
  simp only [hd, hsp]
  by_cases hin : d.getOriginalPath ∈ st.deps_collected
  · have hlines : collectDependenciesForFileLines env st d.getOriginalPath [] = [] := by
      simp [collectDependenciesForFileLines, hin]
    rw [hlines]
    intro d0 hd0
    show d0.filename ∈ (collectRpathsForFilename env st d.getOriginalPath).names
    rw [names_frame]
    exact h.2.2 _ hin d0 hd0
  · have hlines : collectDependenciesForFileLines env st d.getOriginalPath [] =
        env.parseLoadCommands d.getOriginalPath "LC_LOAD_DYLIB" "name" := by
      simp [collectDependenciesForFileLines, collectDependencies, hin]
    rw [hlines]
    exact scanned_of_fold env s0 d.getOriginalPath (subLine env d.getOriginalPath)
      (fun st l x hx => names_mono_subLine env _ st l x hx)
      (fun st l hm hl hb => names_of_subLine env s0 _ st l hind hm hl hb) _

theorem foldl_establish_inv {α β : Type} (I Q : β → Prop) (step : β → α → β) (xs : List α)
    (x : α) (hx : x ∈ xs) (hI : ∀ b y, I b → I (step b y))
    (hest : ∀ b, I b → Q (step b x)) (hpres : ∀ b y, Q b → Q (step b y))
    (b : β) (hb : I b) : Q (xs.foldl step b) := by
  induction xs generalizing b with
  | nil => simp at hx
  | cons y ys ih =>
    rcases List.mem_cons.1 hx with rfl | hx
    · exact foldl_preserves Q step ys (fun b y _ hb => hpres b y hb) _ (hest b hb)
    · exact ih hx _ (hI b y hb)

/-- After a pass, the libraries referenced by every dependency that was in the
flat collection when the pass began are in the flat collection. -/
theorem subPass_scans (env : Env) (s0 : Settings) (roots : List String)
    (hind : StateIndependent env) (hplain : PlainPaths env s0 roots)
    (st : State) (h : Inv env s0 roots st) (n : Nat) (d : Dependency)
    (hd : st.deps.get? n = some d) :
    Scanned env s0 (subPass env st) d.getOriginalPath := by
  have hn : n ∈ List.range st.deps.length := by
    rw [List.mem_range]
    exact (List.get?_eq_some.1 hd).1
  unfold subPass
  apply foldl_establish_inv
    (fun b => Inv env s0 roots b ∧ st.deps.map Dependency.core <+: b.deps.map Dependency.core)
    (fun b => Scanned env s0 b d.getOriginalPath) (subStep env) _ n hn
  · intro b y hb
    exact ⟨Inv_subStep env s0 roots hind hplain b y hb.1, cores_prefix_subStep env _ b y hb.2⟩
  · intro b hb
    have h1 : (st.deps.map Dependency.core).get? n = some d.core := by
      rw [List.get?_eq_getElem?, List.getElem?_map, ← List.get?_eq_getElem?, hd]; rfl
    have h2 := prefix_get _ _ hb.2 n _ h1
    rw [List.get?_eq_getElem?, List.getElem?_map, ← List.get?_eq_getElem?] at h2
    cases hbn : b.deps.get? n with
    | none => rw [hbn] at h2; simp at h2
    | some d' =>
      rw [hbn] at h2
      have hc : d'.core = d.core := by simpa using h2
      have := subStep_scans env s0 roots hind hplain b n d' hb.1 hbn
      rw [(core_fields hc).2.2] at this
      exact this
  · intro b y hb d0 hd0
    exact names_mono_subStep env b y _ (hb d0 hd0)
  · exact ⟨h, List.prefix_refl _⟩

theorem cores_prefix_subPass (env : Env) (st : State) :
    st.deps.map Dependency.core <+: (subPass env st).deps.map Dependency.core := by
  unfold subPass
  exact foldl_preserves
    (fun s : State => st.deps.map Dependency.core <+: s.deps.map Dependency.core) _ _
    (fun b n _ hb => cores_prefix_subStep env _ b n hb) st (List.prefix_refl _)

theorem Inv_init (env : Env) (s0 : Settings) (roots : List String) (s : Settings) :
    Inv env s0 roots (State.init s) := by
  refine ⟨?_, ?_, ?_⟩
  · intro d hd
    simp [State.init] at hd
  · simp [State.names, State.init]
  · intro f hf
    simp [State.init] at hf

theorem seed_fold (env : Env) (s0 : Settings) (roots : List String)
    (hind : StateIndependent env) (rs : List String) (hrs : ∀ r ∈ rs, r ∈ roots)
    (st : State) (h : Inv env s0 roots st) :
    Inv env s0 roots (rs.foldl (collectDependenciesForFile env) st) ∧
    (∀ r ∈ rs, r ∈ (rs.foldl (collectDependenciesForFile env) st).deps_collected) ∧
    (∀ g ∈ st.deps_collected, g ∈ (rs.foldl (collectDependenciesForFile env) st).deps_collected) := by
  induction rs generalizing st with
  | nil => exact ⟨h, fun r hr => by simp at hr, fun g hg => hg⟩
  | cons r rest ih =>
    obtain ⟨h1, h2, h3⟩ := Inv_collectDependenciesForFile env s0 roots hind st r
      (hrs r (List.mem_cons_self _ _)) h
    obtain ⟨i1, i2, i3⟩ := ih (fun x hx => hrs x (List.mem_cons_of_mem _ hx)) _ h1
    refine ⟨i1, ?_, fun g hg => i3 g (h3 g hg)⟩
    intro x hx
    rcases List.mem_cons.1 hx with rfl | hx
    · exact i3 _ h2
    · exact i2 x hx

theorem SeededInv_seed (env : Env) (s0 : Settings) (roots : List String)
    (hind : StateIndependent env) (s : Settings) :
    SeededInv env s0 roots (seed env (State.init s) roots) := by
  obtain ⟨h1, h2, _⟩ := seed_fold env s0 roots hind roots (fun r hr => hr) _
    (Inv_init env s0 roots s)
  exact ⟨h1, h2⟩

theorem SeededInv_subPass (env : Env) (s0 : Settings) (roots : List String)
    (hind : StateIndependent env) (hplain : PlainPaths env s0 roots)
    (st : State) (h : SeededInv env s0 roots st) : SeededInv env s0 roots (subPass env st) :=
  ⟨Inv_subPass env s0 roots hind hplain st h.1, fun r hr => by
    rw [deps_collected_subPass]
    exact h.2 r hr⟩

/-- A reachable library whose file name is in the flat collection is in it. -/
theorem path_of_name (env : Env) (s0 : Settings) (roots : List String)
    (hnames : DistinctNames env s0 roots) (st : State) (h : Sound env s0 roots st)
    (d0 : Dependency) (hr : Reach env s0 roots d0) (hn : d0.filename ∈ st.names) :
    ∃ d ∈ st.deps, d.getOriginalPath = d0.getOriginalPath := by
  obtain ⟨d, hd, e⟩ := List.mem_map.1 hn
  obtain ⟨d1, hr1, e1⟩ := h d hd
  have hf := core_fields e1
  refine ⟨d, hd, ?_⟩
  rw [hf.2.2]
  exact (hnames d1 d0 hr1 hr).1 (hf.1.symm.trans e)

theorem paths_nodup (env : Env) (s0 : Settings) (roots : List String)
    (hnames : DistinctNames env s0 roots) (st : State) (h : Inv env s0 roots st) :
    (st.deps.map Dependency.getOriginalPath).Nodup := by
  have hinj := List.inj_on_of_nodup_map h.2.1
  apply List.Nodup.map_on _ (List.Nodup.of_map _ h.2.1)
  intro x hx y hy hxy
  apply hinj hx hy
  obtain ⟨x0, rx, ex⟩ := h.1 x hx
  obtain ⟨y0, ry, ey⟩ := h.1 y hy
  have fx := core_fields ex
  have fy := core_fields ey
  rw [fx.1, fy.1]
  apply (hnames x0 y0 rx ry).2
  rw [← fx.2.2, ← fy.2.2]
  exact hxy

theorem length_le_card (env : Env) (s0 : Settings) (roots : List String)
    (hnames : DistinctNames env s0 roots) (R : Finset String)
    (hR : ∀ q, q ∈ R ↔ ∃ d, Reach env s0 roots d ∧ d.getOriginalPath = q)
    (st : State) (h : Inv env s0 roots st) : st.deps.length ≤ R.card := by
  have h1 : (st.deps.map Dependency.getOriginalPath).toFinset.card = st.deps.length := by
    rw [List.toFinset_card_of_nodup (paths_nodup env s0 roots hnames st h), List.length_map]
  rw [← h1]
  apply Finset.card_le_card
  intro q hq
  obtain ⟨d, hd, e⟩ := List.mem_map.1 (List.mem_toFinset.1 hq)
  obtain ⟨d0, hr, e0⟩ := h.1 d hd
  exact (hR q).2 ⟨d0, hr, by rw [← (core_fields e0).2.2]; exact e⟩

/-- At a fixed point of the passes every reachable library is in the flat
collection. -/
theorem complete_of_fixed (env : Env) (s0 : Settings) (roots : List String)
    (hind : StateIndependent env) (hplain : PlainPaths env s0 roots)
    (hnames : DistinctNames env s0 roots) (last : State)
    (h : SeededInv env s0 roots last)
    (hfix : (subPass env last).deps.length = last.deps.length)
    (d0 : Dependency) (hr : Reach env s0 roots d0) :
    ∃ d ∈ (subPass env last).deps, d.getOriginalPath = d0.getOriginalPath := by
  have h' := SeededInv_subPass env s0 roots hind hplain last h
  have hcores : last.deps.map Dependency.core = (subPass env last).deps.map Dependency.core :=
    (cores_prefix_subPass env last).eq_of_length (by simp [hfix])
  induction hr with
  | root hroot hch =>
    exact path_of_name env s0 roots hnames _ h'.1.1 _ (Reach.root hroot hch)
      (h'.1.2.2 _ (h'.2 _ hroot) _ hch)
  | step hprev hch ih =>
    rename_i d1 d2
    obtain ⟨d, hd, e⟩ := ih
    have hc : d.core ∈ last.deps.map Dependency.core := by
      rw [hcores]
      exact List.mem_map_of_mem _ hd
    obtain ⟨dl, hdl, el⟩ := List.mem_map.1 hc
    obtain ⟨n, hn⟩ := List.get?_of_mem hdl
    have hs := subPass_scans env s0 roots hind hplain last h.1 n dl hn
    rw [(core_fields el).2.2, e] at hs
    exact path_of_name env s0 roots hnames _ h'.1.1 _ (Reach.step hprev hch) (hs _ hch)

/-- C4, amended. Let the references the reader lists resolve independently of the
settings, let the reachable libraries have plain paths, and let them have
pairwise distinct file names (one name per file). Then for every finite set `R`
that is exactly the set of reachable library files, for the roots seeded in any
order and the references listed in any order, the seed phase followed by
`collectSubDependencies` (plugin extension disabled) terminates, within
`R.card + 1` passes, and leaves the flat collection `deps` with exactly
`R.card` Dependencies, one per reachable file. No acyclicity is needed. -/
theorem fixed_point_exact (env : Env) (s0 : Settings) (roots : List String) (R : Finset String)
    (hind : StateIndependent env) (hplain : PlainPaths env s0 roots)
    (hnames : DistinctNames env s0 roots)
    (hR : ∀ q, q ∈ R ↔ ∃ d, Reach env s0 roots d ∧ d.getOriginalPath = q) :
    ∃ fuel st, fuel ≤ R.card + 1 ∧
      collectSubDependencies env fuel (seed env (State.init s0) roots) = some st ∧
      (∀ more, collectSubDependencies env (fuel + more) (seed env (State.init s0) roots) =
        some st) ∧
      st.deps.length = R.card ∧
      (st.deps.map Dependency.getOriginalPath).Nodup ∧
      (∀ q, q ∈ R ↔ q ∈ st.deps.map Dependency.getOriginalPath) := by
  obtain ⟨fuel, last, hf, hlast, _, hrun, hfix⟩ :=
    loop_exits env (SeededInv env s0 roots) R.card
      (fun st h => SeededInv_subPass env s0 roots hind hplain st h)
      (fun st h => length_le_card env s0 roots hnames R hR st h.1)
      R.card _ (SeededInv_seed env s0 roots hind s0) (Nat.sub_le _ _)
  have h' := SeededInv_subPass env s0 roots hind hplain last hlast
  have hnd := paths_nodup env s0 roots hnames _ h'.1
  have hiff : ∀ q, q ∈ R ↔ q ∈ (subPass env last).deps.map Dependency.getOriginalPath := by
    intro q
    constructor
    · intro hq
      obtain ⟨d0, hr, e⟩ := (hR q).1 hq
      obtain ⟨d, hd, e'⟩ := complete_of_fixed env s0 roots hind hplain hnames last hlast hfix d0 hr
      exact List.mem_map.2 ⟨d, hd, e'.trans e⟩
    · intro hq
      obtain ⟨d, hd, e⟩ := List.mem_map.1 hq
      obtain ⟨d0, hr, e0⟩ := h'.1.1 d hd
      exact (hR q).2 ⟨d0, hr, by rw [← (core_fields e0).2.2]; exact e⟩
  refine ⟨fuel, subPass env last, hf, hrun,
    fun more => collectSubDependencies_mono env fuel more _ _ hrun, ?_, hnd, hiff⟩
  have h1 : ((subPass env last).deps.map Dependency.getOriginalPath).toFinset = R := by
    ext q
    rw [List.mem_toFinset]
    exact (hiff q).symm
  rw [← h1, List.toFinset_card_of_nodup hnd, List.length_map]

theorem twin_reach (d : Dependency)
    (h : Reach Example.twinEnv (Example.settings ["/app/main"]) ["/app/main"] d) :
    d = Example.twinA ∨ d = Example.twinB := by
  induction h with
  | root hr hd =>
    rw [List.mem_singleton] at hr
    subst hr
    have e : children Example.twinEnv (Example.settings ["/app/main"]) "/app/main" =
        [Example.twinA, Example.twinB] := by decide
    rw [e] at hd
    simpa using hd
  | step _ hd ih =>
    rcases ih with rfl | rfl
    · have e : children Example.twinEnv (Example.settings ["/app/main"])
          Example.twinA.getOriginalPath = [] := by decide
      rw [e] at hd
      simp at hd
    · have e : children Example.twinEnv (Example.settings ["/app/main"])
          Example.twinB.getOriginalPath = [] := by decide
      rw [e] at hd
      simp at hd

/-- C4 as stated fails: the application references `/a/libX.dylib` and
`/b/libX.dylib`, two distinct bundled files without references of their own (an
acyclic graph with two reachable library files); both have the file name
`libX.dylib`, the second is merged into the first, and the flat collection
ends with one Dependency. -/
theorem same_leaf_fixed_point_counterexample :
    children Example.twinEnv (Example.settings ["/app/main"]) "/app/main" =
      [Example.twinA, Example.twinB] ∧
    children Example.twinEnv (Example.settings ["/app/main"]) "/a/libX.dylib" = [] ∧
    children Example.twinEnv (Example.settings ["/app/main"]) "/b/libX.dylib" = [] ∧
    Example.twinA.getOriginalPath = "/a/libX.dylib" ∧
    Example.twinB.getOriginalPath = "/b/libX.dylib" ∧
    (∀ q, q ∈ ({"/a/libX.dylib", "/b/libX.dylib"} : Finset String) ↔
      ∃ d, Reach Example.twinEnv (Example.settings ["/app/main"]) ["/app/main"] d ∧
        d.getOriginalPath = q) ∧
    ({"/a/libX.dylib", "/b/libX.dylib"} : Finset String).card = 2 ∧
    (∀ more, (collectSubDependencies Example.twinEnv (1 + more)
      (seed Example.twinEnv (State.init (Example.settings ["/app/main"]))
        ["/app/main"])).map (fun st => st.deps) = some [Example.twinA]) ∧
    ¬ ExactlyReachable Example.twinEnv (Example.settings ["/app/main"]) ["/app/main"] := by
  have hch : children Example.twinEnv (Example.settings ["/app/main"]) "/app/main" =
      [Example.twinA, Example.twinB] := by decide
  have hR : ∀ q, q ∈ ({"/a/libX.dylib", "/b/libX.dylib"} : Finset String) ↔
      ∃ d, Reach Example.twinEnv (Example.settings ["/app/main"]) ["/app/main"] d ∧
        d.getOriginalPath = q := by
    intro q
    constructor
    · intro hq
      simp only [Finset.mem_insert, Finset.mem_singleton] at hq
      rcases hq with rfl | rfl
      · exact ⟨Example.twinA, Reach.root (List.mem_singleton.2 rfl) (by rw [hch]; simp),
          by decide⟩
      · exact ⟨Example.twinB, Reach.root (List.mem_singleton.2 rfl) (by rw [hch]; simp),
          by decide⟩
    · rintro ⟨d, hd, rfl⟩
      rcases twin_reach d hd with rfl | rfl <;> decide
  have hrun : ∀ more, collectSubDependencies Example.twinEnv (1 + more)
      (seed Example.twinEnv (State.init (Example.settings ["/app/main"])) ["/app/main"]) =
      some (subPass Example.twinEnv
        (seed Example.twinEnv (State.init (Example.settings ["/app/main"])) ["/app/main"])) := by
    intro more
    apply collectSubDependencies_mono
    have h2 : (subPass Example.twinEnv
        (seed Example.twinEnv (State.init (Example.settings ["/app/main"]))
          ["/app/main"])).deps.length =
        (seed Example.twinEnv (State.init (Example.settings ["/app/main"]))
          ["/app/main"]).deps.length := by decide
    simp only [collectSubDependencies]
    exact if_pos h2
  have hdeps : (subPass Example.twinEnv
      (seed Example.twinEnv (State.init (Example.settings ["/app/main"]))
        ["/app/main"])).deps = [Example.twinA] := by decide
  refine ⟨hch, by decide, by decide, by decide, by decide, hR, by decide, ?_, ?_⟩
  · intro more
    rw [hrun more]
    simp [hdeps]
  · intro h
    obtain ⟨fuel, st, h1, h2⟩ := h _ hR
    cases fuel with
    | zero => simp [collectSubDependencies] at h1
    | succ k =>
      have h3 := hrun k
      rw [Nat.add_comm] at h3
      rw [h3] at h1
      injection h1 with h1
      rw [← h1, hdeps] at h2
      revert h2
      decide

theorem chain_children :
    children Example.chainEnv (Example.settings ["/app/main"]) "/app/main" = [Example.libA] ∧
    children Example.chainEnv (Example.settings ["/app/main"]) Example.libA.getOriginalPath =
      [Example.libB] ∧
    children Example.chainEnv (Example.settings ["/app/main"]) Example.libB.getOriginalPath =
      [] := by
  decide

theorem chain_reach (d : Dependency)
    (h : Reach Example.chainEnv (Example.settings ["/app/main"]) ["/app/main"] d) :
    d = Example.libA ∨ d = Example.libB := by
  induction h with
  | root hr hd =>
    rw [List.mem_singleton] at hr
    subst hr
    rw [chain_children.1] at hd
    left
    simpa using hd
  | step _ hd ih =>
    rcases ih with rfl | rfl
    · rw [chain_children.2.1] at hd
      right
      simpa using hd
    · rw [chain_children.2.2] at hd
      simp at hd

theorem chain_independent : StateIndependent Example.chainEnv := by
  intro s s' l f h
  obtain ⟨ls, h1, h2⟩ := mkEnv_parse_mem _ _ _ _ _ _ _ h
  simp only [List.mem_cons, Prod.mk.injEq, List.mem_nil_iff, or_false] at h1
  rcases h1 with ⟨rfl, rfl⟩ | ⟨rfl, rfl⟩ | ⟨rfl, rfl⟩ <;>
    simp only [List.mem_singleton] at h2 <;> subst h2 <;> rfl

theorem chain_plain :
    PlainPaths Example.chainEnv (Example.settings ["/app/main"]) ["/app/main"] := by
  intro d hd
  rcases chain_reach d hd with rfl | rfl <;> decide

theorem chain_distinct :
    DistinctNames Example.chainEnv (Example.settings ["/app/main"]) ["/app/main"] := by
  intro d1 d2 h1 h2
  rcases chain_reach d1 h1 with rfl | rfl <;> rcases chain_reach d2 h2 with rfl | rfl <;> decide

theorem chain_reachable (q : String) :
    q ∈ ({"/opt/lib/libA.dylib", "/opt/lib/libB.dylib"} : Finset String) ↔
      ∃ d, Reach Example.chainEnv (Example.settings ["/app/main"]) ["/app/main"] d ∧
        d.getOriginalPath = q := by
  have hA : Reach Example.chainEnv (Example.settings ["/app/main"]) ["/app/main"]
      Example.libA :=
    Reach.root (List.mem_singleton.2 rfl) (by rw [chain_children.1]; simp)
  constructor
  · intro hq
    simp only [Finset.mem_insert, Finset.mem_singleton] at hq
    rcases hq with rfl | rfl
    · exact ⟨Example.libA, hA, by decide⟩
    · exact ⟨Example.libB, Reach.step hA (by rw [chain_children.2.1]; simp), by decide⟩
  · rintro ⟨d, hd, rfl⟩
    rcases chain_reach d hd with rfl | rfl <;> decide

/-- C4 amended, at the chain example: two reachable libraries, two Dependencies. -/
theorem fixed_point_exact_witness :
    ∃ fuel st, fuel ≤ ({"/opt/lib/libA.dylib", "/opt/lib/libB.dylib"} : Finset String).card + 1 ∧
      collectSubDependencies Example.chainEnv fuel
        (seed Example.chainEnv (State.init (Example.settings ["/app/main"])) ["/app/main"]) =
        some st ∧
      (∀ more, collectSubDependencies Example.chainEnv (fuel + more)
        (seed Example.chainEnv (State.init (Example.settings ["/app/main"])) ["/app/main"]) =
        some st) ∧
      st.deps.length = ({"/opt/lib/libA.dylib", "/opt/lib/libB.dylib"} : Finset String).card ∧
      (st.deps.map Dependency.getOriginalPath).Nodup ∧
      (∀ q, q ∈ ({"/opt/lib/libA.dylib", "/opt/lib/libB.dylib"} : Finset String) ↔
        q ∈ st.deps.map Dependency.getOriginalPath) :=
  fixed_point_exact Example.chainEnv (Example.settings ["/app/main"]) ["/app/main"]
    {"/opt/lib/libA.dylib", "/opt/lib/libB.dylib"}
    chain_independent chain_plain chain_distinct chain_reachable

end DylibBundler
